import Mathlib

/-!
# XmlGameDuplicateFinder

A shallow embedding of `tools/xmlcheck/XmlGameDuplicateFinder.cpp` and the
properties of its line/column locator, line extractor, heuristic source
locator, duplicate detector and exit status.

Conventions of the embedding

* A `std::string` (and the parse buffer) is a `List Char`; a `Char` stands for
  one byte, `NUL` for the byte 0. `std::string::operator<` compares bytes
  lexicographically, which is the order of `List Char`.
* A C++ `int` is an `Int`, a `std::size_t` and a buffer offset are a `Nat`.
  The counters of the program only count entities and lines of the input and
  are kept unbounded. The column of `computeLineCol` is the conversion of a
  pointer difference to `int`, which is modelled with `toInt32`.
* The conversion of a `char*` to a `std::string` stops at the first NUL byte
  (`cstr`).
* A pointer into the parse buffer is its offset from `begin`.
* `std::istringstream` together with `std::getline` is the list of lines
  `getlines` that successive calls extract.
* `std::unordered_map<std::string, int>` is an association list with distinct
  keys. Its iteration order is unspecified: `countNames` lists the entries in
  the order of first insertion, and the report is shown to be the same for
  every other enumeration of the entries.
* The external parser (`rapidxml.hpp`) is a parameter of `main`: it parses the
  mutable buffer in place and gives a tree or a parse error with an offset.
* `std::cout` and `std::cerr` are the texts written to them.
-/

namespace XmlGameDuplicateFinder

/-- A `std::string`: a finite sequence of bytes. -/
abbrev Str := List Char

/-- The byte 0, the terminator of the parse buffer. -/
def NUL : Char := Char.ofNat 0

/-- The `struct GameInfo` of the source. -/
structure GameInfo where
  name : Str
  indexAttr : Str
  imageAttr : Str
deriving DecidableEq, Repr

/-! ## Library operations used by the program -/

/-- The lines that successive `std::getline(iss, line)` calls extract from a
stream holding `text`: characters up to the next `'\n'`, which is consumed and
not stored; at end of input a non-empty remainder is a last line, and an empty
remainder makes the call fail (the loop ends). -/
def getlines : Str → List Str
  | [] => []
  | c :: cs =>
    if c = '\n' then [] :: getlines cs
    else
      match getlines cs with
      | [] => [[c]]
      | l :: ls => (c :: l) :: ls

/-- The statement `if (!line.empty() && line.back() == '\r') line.pop_back();`. -/
def popBackCR (line : Str) : Str :=
  if !line.isEmpty && line.getLast? == some '\r' then line.dropLast else line

/-- The call `s.find(pattern)` scanning from position `pos`: the first position
at which `pattern` occurs, `none` for `std::string::npos`. -/
def strFind (pattern : Str) : Str → Nat → Option Nat
  | [], pos => if pattern.isEmpty then some pos else none
  | c :: cs, pos =>
    if pattern.isPrefixOf (c :: cs) then some pos else strFind pattern cs (pos + 1)

/-- The text `operator<<` writes for an `int`. -/
def intToStr (n : Int) : Str :=
  if n < 0 then '-' :: Nat.toDigits 10 n.natAbs else Nat.toDigits 10 n.toNat

/-- The value of an integer converted to the 32-bit `int`: the value congruent
to it modulo 2^32 that lies in the range from -2^31 to 2^31 - 1. -/
def toInt32 (n : Int) : Int :=
  (n + 2147483648) % 4294967296 - 2147483648

/-- The `std::string` made from a `char*` that points to the bytes `s`: the
bytes before the first NUL byte. -/
def cstr (s : Str) : Str :=
  s.takeWhile (fun c => c != NUL)

/-- The call `std::sort(first, last)` on strings: the ascending arrangement of
the elements under `operator<`. -/
def sortStrings (names : List Str) : List Str :=
  List.insertionSort (fun a b => a ≤ b) names

/-! ## loadFileToString -/

/-- The function `loadFileToString`; `fs` gives the content of each file that
can be opened. The exception is the message of the `std::runtime_error`. -/
def loadFileToString (fs : Str → Option Str) (filename : Str) : Except Str Str :=
  match fs filename with
  | none => Except.error ("Failed to open file: ".toList ++ filename)
  | some content => Except.ok content

/-! ## computeLineCol -/

/-- The `for` loop of `computeLineCol`. The first list is the buffer from `p`
on, `p` and `lastLineStart` are offsets from `begin`. A read of `*p` outside
the buffer gives `none`. The result is `(line, lastLineStart)` at loop exit. -/
def computeLineColLoop (whereOff : Nat) : Str → Nat → Int → Nat → Option (Int × Nat)
  | [], p, line, lastLineStart =>
    if p < whereOff then none else some (line, lastLineStart)
  | c :: cs, p, line, lastLineStart =>
    if p < whereOff ∧ c ≠ NUL then
      if c = '\n' then computeLineColLoop whereOff cs (p + 1) (line + 1) (p + 1)
      else computeLineColLoop whereOff cs (p + 1) line lastLineStart
    else some (line, lastLineStart)

/-- The function `computeLineCol(begin, where, outLine, outCol)`: `buffer` is
the memory at `begin`, `whereOff` is `where - begin`; the result is
`(outLine, outCol)`. The column is `static_cast<int>(where - lastLineStart) + 1`:
the distance is converted to `int` and the sum is kept in the range of `int`. -/
def computeLineCol (buffer : Str) (whereOff : Nat) : Option (Int × Int) :=
  match computeLineColLoop whereOff buffer 0 1 0 with
  | none => none
  | some (line, lastLineStart) =>
    some (line, toInt32 (toInt32 ((whereOff : Int) - (lastLineStart : Int)) + 1))

/-! ## extractLineText -/

/-- The `while` loop of `extractLineText` over the lines still to be read. -/
def extractLineTextLoop (lineNumber : Int) : List Str → Int → Str
  | [], _ => []
  | line :: rest, lineNo =>
    let lineNo := lineNo + 1
    let line := popBackCR line
    if lineNo = lineNumber then line else extractLineTextLoop lineNumber rest lineNo

/-- The function `extractLineText(text, lineNumber)`. -/
def extractLineText (text : Str) (lineNumber : Int) : Str :=
  extractLineTextLoop lineNumber (getlines text) 0

/-! ## parseGamesFromDoc -/

/-- Modelled from the spec: the attribute of the external parser's tree
(`rapidxml.hpp` is not part of the sources): a name and a value. -/
structure XmlAttribute where
  name : Str
  value : Str
deriving DecidableEq, Repr

/-- Modelled from the spec: a node of the external parser's tree, "a tree
queryable for a named root, and for that root's named child elements and their
named attributes, preserving document order among sibling elements". -/
inductive XmlNode where
  | mk (name : Str) (attributes : List XmlAttribute) (children : List XmlNode)

/-- The name of a node. -/
def XmlNode.name : XmlNode → Str
  | XmlNode.mk n _ _ => n

/-- The attributes of a node, in document order. -/
def XmlNode.attributes : XmlNode → List XmlAttribute
  | XmlNode.mk _ a _ => a

/-- The child nodes of a node, in document order. -/
def XmlNode.children : XmlNode → List XmlNode
  | XmlNode.mk _ _ c => c

/-- Modelled from the spec: the query `node->first_node(name)`, the first child
with that name, if any. -/
def XmlNode.first_node (node : XmlNode) (name : Str) : Option XmlNode :=
  node.children.find? (fun child => child.name == name)

/-- Modelled from the spec: the query `node->first_attribute(name)`, the first
attribute with that name, if any. -/
def XmlNode.first_attribute (node : XmlNode) (name : Str) : Option XmlAttribute :=
  node.attributes.find? (fun a => a.name == name)

/-- The `for` loop of `parseGamesFromDoc`: `siblings` are the nodes from the
current one on; `first_node("game")` and `next_sibling("game")` visit those
named `game`. Each `value()` is a `char*` assigned to a `std::string`. -/
def parseGamesLoop : List XmlNode → List GameInfo → List GameInfo
  | [], games => games
  | node :: siblings, games =>
    if node.name = "game".toList then
      match node.first_attribute "name".toList with
      | none => parseGamesLoop siblings games
      | some nameAttr =>
        let indexAttr := node.first_attribute "index".toList
        let imageAttr := node.first_attribute "image".toList
        let info : GameInfo :=
          { name := cstr nameAttr.value
            indexAttr := match indexAttr with
              | some a => cstr a.value
              | none => []
            imageAttr := match imageAttr with
              | some a => cstr a.value
              | none => [] }
        parseGamesLoop siblings (games ++ [info])
    else parseGamesLoop siblings games

/-- The function `parseGamesFromDoc(doc)`; the exception is the message of the
`std::runtime_error`. -/
def parseGamesFromDoc (doc : XmlNode) : Except Str (List GameInfo) :=
  match doc.first_node "menu".toList with
  | none => Except.error "No <menu> root node found".toList
  | some menuNode => Except.ok (parseGamesLoop menuNode.children [])

/-! ## findLinesForName -/

/-- The `while` loop of `findLinesForName` over the lines still to be read. -/
def findLinesLoop (pattern : Str) (maxMatches : Nat) : List Str → Int → List Int → List Int
  | [], _, lines => lines
  | line :: rest, lineNumber, lines =>
    let lineNumber := lineNumber + 1
    let line := popBackCR line
    if (strFind pattern line 0).isSome then
      let lines := lines ++ [lineNumber]
      if lines.length ≥ maxMatches then lines
      else findLinesLoop pattern maxMatches rest lineNumber lines
    else findLinesLoop pattern maxMatches rest lineNumber lines

/-- The text `name="<name>"` searched for. -/
def namePattern (name : Str) : Str :=
  "name=\"".toList ++ name ++ "\"".toList

/-- The function `findLinesForName(xmlContent, name, maxMatches)`. -/
def findLinesForName (xmlContent name : Str) (maxMatches : Nat) : List Int :=
  findLinesLoop (namePattern name) maxMatches (getlines xmlContent) 0 []

/-! ## reportDuplicateNames -/

/-- The map `counts`: its entries, with distinct keys. -/
abbrev CountMap := List (Str × Int)

/-- The statement `++counts[key]`: a missing key is inserted with value 0 and
then incremented. -/
def incrCount (key : Str) : CountMap → CountMap
  | [] => [(key, 1)]
  | (k, c) :: rest =>
    if k = key then (k, c + 1) :: rest else (k, c) :: incrCount key rest

/-- The value of `counts[key]` for reading (0 for a missing key). -/
def getCount (key : Str) : CountMap → Int
  | [] => 0
  | (k, c) :: rest => if k = key then c else getCount key rest

/-- The loop `for (const auto& g : games) ++counts[g.name];` from `counts`. -/
def countNamesFrom : List GameInfo → CountMap → CountMap
  | [], counts => counts
  | g :: games, counts => countNamesFrom games (incrCount g.name counts)

/-- The map `counts` after line 117. -/
def countNames (games : List GameInfo) : CountMap :=
  countNamesFrom games []

/-- The loop of lines 122-124 over the entries `kvs` in iteration order. -/
def collectDuplicates : List (Str × Int) → List Str → List Str
  | [], duplicateNames => duplicateNames
  | kv :: kvs, duplicateNames =>
    if kv.2 > 1 then collectDuplicates kvs (duplicateNames ++ [kv.1])
    else collectDuplicates kvs duplicateNames

/-- The loop of lines 140-146 from index `i`, appending to `lineStr`. -/
def lineStrLoop (size : Nat) : List Int → Nat → Str → Str
  | [], _, lineStr => lineStr
  | l :: ls, i, lineStr =>
    let lineStr :=
      if i > 0 then
        if i + 1 = size then lineStr ++ " and ".toList else lineStr ++ ", ".toList
      else lineStr
    lineStrLoop size ls (i + 1) (lineStr ++ intToStr l)

/-- The text `lineStr.str()` of lines 138-147. -/
def lineStrOf (lines : List Int) : Str :=
  lineStrLoop lines.length lines 0 "(".toList ++ ")".toList

/-- What one iteration of the loop of lines 133-152 computes for a duplicate
name: the name, `count` and `lines`. -/
structure Finding where
  name : Str
  count : Int
  lines : List Int
deriving DecidableEq, Repr

/-- The values `count` and `lines` of lines 134-136 for `name`. -/
def findingFor (counts : CountMap) (xmlContent name : Str) : Finding :=
  let count := getCount name counts
  { name := name, count := count, lines := findLinesForName xmlContent name count.toNat }

/-- The text written to `std::cout` at lines 149-151. -/
def findingLine (f : Finding) : Str :=
  "Name \"".toList ++ f.name ++ "\" appears ".toList ++ intToStr f.count
    ++ " times at lines ".toList ++ lineStrOf f.lines ++ "\n".toList

/-- The findings of `reportDuplicateNames` in the order they are printed, when
the map `counts` is iterated in the order `kvs` at lines 122-124. -/
def duplicateFindingsFrom (kvs : List (Str × Int)) (xmlContent : Str) : List Finding :=
  (sortStrings (collectDuplicates kvs [])).map (findingFor kvs xmlContent)

/-- The body of `reportDuplicateNames` from line 119 on, when the map `counts`
is iterated in the order `kvs`: the return value and the text written to
`std::cout`. -/
def reportDuplicateNamesFrom (kvs : List (Str × Int)) (xmlContent : Str) : Bool × Str :=
  let duplicateNames := collectDuplicates kvs []
  if duplicateNames.isEmpty then (false, "No duplicate game names found.\n".toList)
  else (true, ((duplicateFindingsFrom kvs xmlContent).map findingLine).flatten)

/-- The findings of `reportDuplicateNames(games, xmlContent)`. -/
def duplicateFindings (games : List GameInfo) (xmlContent : Str) : List Finding :=
  duplicateFindingsFrom (countNames games) xmlContent

/-- The function `reportDuplicateNames(games, xmlContent)`: the return value
and the text written to `std::cout`. -/
def reportDuplicateNames (games : List GameInfo) (xmlContent : Str) : Bool × Str :=
  reportDuplicateNamesFrom (countNames games) xmlContent

/-! ## main -/

/-- The result of `doc.parse<0>(buffer.data())`, which works in place on the
mutable buffer: a `rapidxml::parse_error` with its message, the offset of
`where()` in the buffer and the content of the buffer as the parser leaves it,
or the parsed tree. -/
inductive ParseResult where
  | failure (what : Str) (whereOff : Nat) (buffer : Str)
  | success (doc : XmlNode)

/-- What a run of the program leaves: the exit status and the texts written to
`std::cout` and `std::cerr`. -/
structure Run where
  status : Int
  out : Str
  err : Str

/-- The function `main`; `argv` are the `argc` arguments, `fs` the files that
can be opened, `parse` the external parser applied to the buffer. The handler
of the parse error reads the buffer the parser worked on and the unchanged
string `xml`. Each `e.what()` is a `char*` written to `std::cerr`. A read
outside the buffer in `computeLineCol` gives `none`. -/
def main (argv : List Str) (fs : Str → Option Str) (parse : Str → ParseResult) :
    Option Run :=
  if argv.length < 2 then
    some { status := 1, out := [], err := "Usage: XmlGameDuplicateFinder <menu.xml>\n".toList }
  else
    let filename := argv.getD 1 []
    match loadFileToString fs filename with
    | Except.error what =>
      some { status := 1, out := [], err := "Error: ".toList ++ cstr what ++ "\n".toList }
    | Except.ok xml =>
      let buffer := xml ++ [NUL]
      match parse buffer with
      | ParseResult.failure what whereOff buffer =>
        match computeLineCol buffer whereOff with
        | none => none
        | some (line, col) =>
          let err1 := "XML parse error: ".toList ++ cstr what ++ "\n".toList
            ++ "At line ".toList ++ intToStr line ++ ", column ".toList ++ intToStr col
            ++ "\n".toList
          let lineText := extractLineText xml line
          let err2 :=
            if !lineText.isEmpty then
              lineText ++ "\n".toList
                ++ (if col > 0 then List.replicate (col - 1).toNat ' ' ++ "^\n".toList else [])
            else []
          some { status := 1, out := [], err := err1 ++ err2 }
      | ParseResult.success doc =>
        match parseGamesFromDoc doc with
        | Except.error what =>
          some { status := 1, out := [], err := "Error: ".toList ++ cstr what ++ "\n".toList }
        | Except.ok games =>
          let (hasDupes, out) := reportDuplicateNames games xml
          some { status := if hasDupes then 2 else 0, out := out, err := [] }


/-! ## Notions used to state the properties -/

/-- The keys of a map of counts, in the order of its entries. -/
def keysOf (m : CountMap) : List Str := m.map Prod.fst

/-- The names of the entities, in document order. -/
def namesOf (games : List GameInfo) : List Str := games.map GameInfo.name

/-- The number of entities of the sequence whose name is exactly `name`. -/
def occurrences (name : Str) (games : List GameInfo) : Nat :=
  games.countP (fun g => decide (g.name = name))

/-- The lines of a text: the maximal segments free of `'\n'`, so that `n`
newlines delimit `n + 1` lines, the last of them possibly empty. -/
def textLines : Str → List Str
  | [] => [[]]
  | c :: cs =>
    if c = '\n' then [] :: textLines cs
    else
      match textLines cs with
      | [] => [[c]]
      | l :: ls => (c :: l) :: ls

/-- The 1-based numbers, in ascending order, of the lines of `text` that
contain `pattern` as a contiguous substring. -/
def linesContaining (pattern text : Str) : List Int :=
  (((textLines text).enumFrom 1).filter (fun p => decide (pattern <:+: p.2))).map
    (fun p => (p.1 : Int))

/-- The numbers of the lines among `lines` that satisfy `test`, when the first
of them has number `lineNumber + 1`. -/
def matchNumbers (test : Str → Bool) : List Str → Int → List Int
  | [], _ => []
  | line :: rest, lineNumber =>
    if test line then (lineNumber + 1) :: matchNumbers test rest (lineNumber + 1)
    else matchNumbers test rest (lineNumber + 1)

/-- No newline follows a NUL byte among the bytes `scanned`, which are those
strictly before an offset: the part of `scanned` from its first NUL byte on
holds no newline. -/
def NoNewlineAfterNUL (scanned : Str) : Prop :=
  '\n' ∉ scanned.dropWhile (fun c => c != NUL)

/-- The position `s` is the start of the line of an offset, when `scanned` are
the bytes strictly before the offset: the position just after the last `'\n'`
of `scanned`, or 0 if there is none. -/
def IsLineStart (scanned : Str) (s : Nat) : Prop :=
  (s = 0 ∧ '\n' ∉ scanned) ∨
    ∃ a b : Str, scanned = a ++ '\n' :: b ∧ '\n' ∉ b ∧ s = a.length + 1


/-- The outcomes of a run: the five that the specification lists for the exit
status, and the missing-root error of its error taxonomy. -/
inductive Outcome where
  | usageError
  | fileFailure
  | parseFailure
  | missingRoot
  | duplicatesFound
  | noDuplicates
deriving DecidableEq, Repr

/-- The outcome of a run, read off its inputs: a missing argument, a file that
cannot be opened, a document the parser rejects, a document without a `menu`
root, and otherwise whether some name occurs in more than one entity. -/
def outcomeOf (argv : List Str) (fs : Str → Option Str) (parse : Str → ParseResult) :
    Outcome :=
  if argv.length < 2 then Outcome.usageError
  else
    match fs (argv.getD 1 []) with
    | none => Outcome.fileFailure
    | some xml =>
      match parse (xml ++ [NUL]) with
      | ParseResult.failure _ _ _ => Outcome.parseFailure
      | ParseResult.success doc =>
        match parseGamesFromDoc doc with
        | Except.error _ => Outcome.missingRoot
        | Except.ok games =>
          if (namesOf games).Nodup then Outcome.noDuplicates else Outcome.duplicatesFound

/-- The exit status that the program gives to an outcome. -/
def statusOf : Outcome → Int
  | Outcome.duplicatesFound => 2
  | Outcome.noDuplicates => 0
  | _ => 1

/-- The contract of the external parser that `main` relies on: the offset of a
parse error points into the buffer (at most at its end). -/
def ParserInBounds (parse : Str → ParseResult) : Prop :=
  ∀ (buffer what : Str) (whereOff : Nat) (after : Str),
    parse buffer = ParseResult.failure what whereOff after → whereOff ≤ after.length

/-- The `game` elements among the children of the menu root, in document
order. -/
def gameElements (menu : XmlNode) : List XmlNode :=
  menu.children.filter (fun node => decide (node.name = "game".toList))

/-- The bytes of an attribute value before its first NUL byte: the whole value
when it holds no NUL byte. -/
def untilNUL (value : Str) : Str :=
  value.takeWhile (fun c => c != NUL)

/-- The entity that a `game` element stands for: none when the element has no
`name` attribute, otherwise the value of that attribute together with the
values of the `index` and `image` attributes, each empty when absent; every
value is taken up to its first NUL byte. -/
def entityOf (node : XmlNode) : Option GameInfo :=
  match node.first_attribute "name".toList with
  | none => none
  | some nameAttr =>
    some
      { name := untilNUL nameAttr.value
        indexAttr := ((node.first_attribute "index".toList).map
          (fun a => untilNUL a.value)).getD []
        imageAttr := ((node.first_attribute "image".toList).map
          (fun a => untilNUL a.value)).getD [] }

/-- A menu file of four lines whose third line gives an attribute value without
quotes, at offset 35. -/
def sampleFile : Str :=
  "<menu>\n<game name=\"A\"/>\n<game name=B/>\n</menu>\n".toList

/-- The parse buffer of `sampleFile` at the moment the in-place parser reports
the unquoted value: the parser has written a NUL byte over the byte after the
name of the first element, over the `=` after both attribute names and over the
closing quote of the first value. -/
def sampleBufferAfterParse : Str :=
  "<menu>\n<game\x00name\x00\"A\x00/>\n<game name\x00B/>\n</menu>\n\x00".toList

/-! ## The map of counts -/

theorem getCount_incrCount (key k : Str) (m : CountMap) :
    getCount k (incrCount key m) = if k = key then getCount k m + 1 else getCount k m := by
  induction m with
  | nil =>
    by_cases h : k = key
    · simp [incrCount, getCount, h]
    · have h2 : ¬ key = k := fun e => h e.symm
      simp [incrCount, getCount, h, h2]
  | cons kv rest ih =>
    obtain ⟨k1, c⟩ := kv
    by_cases h1 : k1 = key
    · by_cases h : k = key
      · simp [incrCount, getCount, h1, h]
      · have h2 : ¬ key = k := fun e => h e.symm
        simp [incrCount, getCount, h1, h, h2]
    · by_cases h2 : k1 = k
      · have h3 : ¬ k = key := fun e => h1 (h2.trans e)
        simp [incrCount, getCount, h1, h2, h3]
      · simp [incrCount, getCount, h1, h2, ih]

theorem keysOf_incrCount (key : Str) (m : CountMap) :
    keysOf (incrCount key m) = if key ∈ keysOf m then keysOf m else keysOf m ++ [key] := by
  induction m with
  | nil => simp [incrCount, keysOf]
  | cons kv rest ih =>
    obtain ⟨k1, c⟩ := kv
    by_cases h1 : k1 = key
    · simp [incrCount, keysOf, h1]
    · have h2 : ¬ key = k1 := fun e => h1 e.symm
      simp only [keysOf] at ih
      simp only [incrCount, keysOf, h1, if_false, List.map_cons, List.mem_cons, h2, false_or, ih]
      split_ifs <;> simp

theorem nodup_keysOf_incrCount (key : Str) (m : CountMap) (h : (keysOf m).Nodup) :
    (keysOf (incrCount key m)).Nodup := by
  rw [keysOf_incrCount]
  split_ifs with hk
  · exact h
  · exact List.Nodup.append h (List.nodup_singleton key) (by simpa using hk)

theorem mem_keysOf_incrCount (key k : Str) (m : CountMap) :
    k ∈ keysOf (incrCount key m) ↔ k ∈ keysOf m ∨ k = key := by
  rw [keysOf_incrCount]
  split_ifs with hk
  · constructor
    · exact fun h => Or.inl h
    · rintro (h | h)
      · exact h
      · exact h ▸ hk
  · simp

theorem nodup_keysOf_countNamesFrom (games : List GameInfo) (m : CountMap)
    (h : (keysOf m).Nodup) : (keysOf (countNamesFrom games m)).Nodup := by
  induction games generalizing m with
  | nil => exact h
  | cons g games ih => exact ih _ (nodup_keysOf_incrCount g.name m h)

theorem mem_keysOf_countNamesFrom (games : List GameInfo) (m : CountMap) (k : Str) :
    k ∈ keysOf (countNamesFrom games m) ↔ k ∈ keysOf m ∨ k ∈ namesOf games := by
  induction games generalizing m with
  | nil => simp [countNamesFrom, namesOf]
  | cons g games ih =>
    simp only [countNamesFrom, ih, mem_keysOf_incrCount, namesOf, List.map_cons, List.mem_cons]
    tauto

theorem getCount_countNamesFrom (games : List GameInfo) (m : CountMap) (k : Str) :
    getCount k (countNamesFrom games m) = getCount k m + (occurrences k games : Int) := by
  induction games generalizing m with
  | nil => simp [countNamesFrom, occurrences]
  | cons g games ih =>
    simp only [countNamesFrom, ih, getCount_incrCount, occurrences, List.countP_cons]
    by_cases h : k = g.name
    · simp [h]; ring
    · have h2 : ¬ g.name = k := fun e => h e.symm
      simp [h, h2]

theorem nodup_keysOf_countNames (games : List GameInfo) : (keysOf (countNames games)).Nodup :=
  nodup_keysOf_countNamesFrom games [] List.nodup_nil

theorem mem_keysOf_countNames (games : List GameInfo) (k : Str) :
    k ∈ keysOf (countNames games) ↔ k ∈ namesOf games := by
  rw [countNames, mem_keysOf_countNamesFrom]
  simp [keysOf]

theorem getCount_countNames (games : List GameInfo) (k : Str) :
    getCount k (countNames games) = (occurrences k games : Int) := by
  simp [countNames, getCount_countNamesFrom, getCount]

theorem getCount_of_not_mem (k : Str) (m : CountMap) (h : k ∉ keysOf m) : getCount k m = 0 := by
  induction m with
  | nil => rfl
  | cons kv rest ih =>
    obtain ⟨k1, c⟩ := kv
    simp only [keysOf, List.map_cons, List.mem_cons, not_or] at h
    have h1 : ¬ k1 = k := fun e => h.1 e.symm
    simp only [getCount, h1, if_false]
    exact ih h.2

theorem mem_getCount_of_mem_keysOf (k : Str) (m : CountMap) (h : k ∈ keysOf m) :
    (k, getCount k m) ∈ m := by
  induction m with
  | nil => simp [keysOf] at h
  | cons kv rest ih =>
    obtain ⟨k1, c⟩ := kv
    by_cases h1 : k1 = k
    · simp [getCount, h1]
    · simp only [keysOf, List.map_cons, List.mem_cons] at h
      have h2 : k ∈ keysOf rest := by
        rcases h with h | h
        · exact absurd h.symm h1
        · exact h
      simp only [getCount, h1, if_false, List.mem_cons]
      exact Or.inr (ih h2)

theorem getCount_of_mem (k : Str) (c : Int) (m : CountMap) (hn : (keysOf m).Nodup)
    (h : (k, c) ∈ m) : getCount k m = c := by
  induction m with
  | nil => simp at h
  | cons kv rest ih =>
    obtain ⟨k1, c1⟩ := kv
    simp only [keysOf, List.map_cons, List.nodup_cons] at hn
    by_cases h1 : k1 = k
    · simp only [getCount, h1, if_true]
      rcases List.mem_cons.1 h with h | h
      · exact (Prod.mk.inj h).2.symm
      · exact absurd (h1 ▸ List.mem_map_of_mem Prod.fst h) hn.1
    · simp only [getCount, h1, if_false]
      rcases List.mem_cons.1 h with h | h
      · exact absurd (Prod.mk.inj h).1.symm h1
      · exact ih hn.2 h

theorem getCount_eq_of_perm (kvs kvs1 : CountMap) (hp : kvs.Perm kvs1)
    (hn : (keysOf kvs).Nodup) (k : Str) : getCount k kvs = getCount k kvs1 := by
  have hn1 : (keysOf kvs1).Nodup := (hp.map Prod.fst).nodup_iff.1 hn
  by_cases hk : k ∈ keysOf kvs
  · have h1 := hp.mem_iff.1 (mem_getCount_of_mem_keysOf k kvs hk)
    exact (getCount_of_mem k _ kvs1 hn1 h1).symm
  · have hk1 : k ∉ keysOf kvs1 := fun h => hk ((hp.map Prod.fst).mem_iff.2 h)
    rw [getCount_of_not_mem k kvs hk, getCount_of_not_mem k kvs1 hk1]

theorem collectDuplicates_eq (kvs : List (Str × Int)) (acc : List Str) :
    collectDuplicates kvs acc
      = acc ++ (kvs.filter (fun kv => decide (kv.2 > 1))).map Prod.fst := by
  induction kvs generalizing acc with
  | nil => simp [collectDuplicates]
  | cons kv kvs ih =>
    by_cases h : kv.2 > 1
    · simp [collectDuplicates, h, ih]
    · simp [collectDuplicates, h, ih]

theorem mem_collectDuplicates (kvs : CountMap) (hn : (keysOf kvs).Nodup) (k : Str) :
    k ∈ collectDuplicates kvs [] ↔ 1 < getCount k kvs := by
  rw [collectDuplicates_eq]
  simp only [List.nil_append, List.mem_map, List.mem_filter, decide_eq_true_eq]
  constructor
  · rintro ⟨⟨k1, c⟩, ⟨hmem, hc⟩, rfl⟩
    rw [getCount_of_mem k1 c kvs hn hmem]
    exact hc
  · intro h
    have hk : k ∈ keysOf kvs := by
      by_contra hk
      rw [getCount_of_not_mem k kvs hk] at h
      exact absurd h (by decide)
    exact ⟨(k, getCount k kvs), ⟨mem_getCount_of_mem_keysOf k kvs hk, h⟩, rfl⟩

theorem nodup_collectDuplicates (kvs : CountMap) (hn : (keysOf kvs).Nodup) :
    (collectDuplicates kvs []).Nodup := by
  rw [collectDuplicates_eq]
  simp only [List.nil_append]
  exact (List.Nodup.sublist (List.Sublist.map Prod.fst (List.filter_sublist kvs)) hn)

theorem str_order_examples :
    (['A'] : Str) < ['B'] ∧ (['A'] : Str) < ['A', 'A'] ∧ (['A', 'z'] : Str) < ['B'] ∧
    (['B'] : Str) < ['a'] ∧ ¬ (['b'] : Str) < ['B'] := by
  decide

theorem sortStrings_perm (names : List Str) : (sortStrings names).Perm names :=
  List.perm_insertionSort _ names

theorem sortStrings_sorted (names : List Str) :
    List.Sorted (fun a b : Str => a ≤ b) (sortStrings names) :=
  List.sorted_insertionSort _ names

theorem sortStrings_eq_of_perm (l1 l2 : List Str) (hp : l1.Perm l2) :
    sortStrings l1 = sortStrings l2 :=
  List.eq_of_perm_of_sorted
    (((sortStrings_perm l1).trans hp).trans (sortStrings_perm l2).symm)
    (sortStrings_sorted l1) (sortStrings_sorted l2)

/-! ## The duplicate report -/

theorem map_name_duplicateFindingsFrom (kvs : CountMap) (xmlContent : Str) :
    (duplicateFindingsFrom kvs xmlContent).map Finding.name
      = sortStrings (collectDuplicates kvs []) := by
  simp [duplicateFindingsFrom, findingFor, Function.comp_def]

theorem map_name_count_duplicateFindingsFrom (kvs : CountMap) (xmlContent : Str) :
    (duplicateFindingsFrom kvs xmlContent).map (fun f => (f.name, f.count))
      = (sortStrings (collectDuplicates kvs [])).map (fun n => (n, getCount n kvs)) := by
  simp [duplicateFindingsFrom, findingFor, Function.comp_def]

theorem mem_names_duplicateFindings (games : List GameInfo) (xmlContent name : Str) :
    name ∈ (duplicateFindings games xmlContent).map Finding.name
      ↔ 1 < occurrences name games := by
  rw [duplicateFindings, map_name_duplicateFindingsFrom, (sortStrings_perm _).mem_iff,
    mem_collectDuplicates _ (nodup_keysOf_countNames games), getCount_countNames]
  exact Int.ofNat_lt

theorem reportDuplicateNamesFrom_eq (kvs : CountMap) (xmlContent : Str) :
    reportDuplicateNamesFrom kvs xmlContent
      = if duplicateFindingsFrom kvs xmlContent = []
        then (false, "No duplicate game names found.\n".toList)
        else (true, ((duplicateFindingsFrom kvs xmlContent).map findingLine).flatten) := by
  have h : duplicateFindingsFrom kvs xmlContent = [] ↔ collectDuplicates kvs [] = [] := by
    constructor
    · intro h
      have h1 := congrArg (List.map Finding.name) h
      rw [map_name_duplicateFindingsFrom] at h1
      rw [List.map_nil] at h1
      have h2 := sortStrings_perm (collectDuplicates kvs [])
      rw [h1] at h2
      exact h2.symm.eq_nil
    · intro h
      simp [duplicateFindingsFrom, h, sortStrings]
  by_cases hd : collectDuplicates kvs [] = []
  · simp [reportDuplicateNamesFrom, hd, h.2 hd]
  · have hf : ¬ duplicateFindingsFrom kvs xmlContent = [] := fun e => hd (h.1 e)
    simp [reportDuplicateNamesFrom, hd, hf]

theorem duplicateFindingsFrom_eq_of_perm (kvs kvs1 : CountMap) (xmlContent : Str)
    (hp : kvs.Perm kvs1) (hn : (keysOf kvs).Nodup) :
    duplicateFindingsFrom kvs xmlContent = duplicateFindingsFrom kvs1 xmlContent := by
  have hs : sortStrings (collectDuplicates kvs []) = sortStrings (collectDuplicates kvs1 []) := by
    apply sortStrings_eq_of_perm
    rw [collectDuplicates_eq, collectDuplicates_eq]
    exact ((hp.filter _).map _).append_left _
  have hf : findingFor kvs xmlContent = findingFor kvs1 xmlContent := by
    funext name
    simp [findingFor, getCount_eq_of_perm kvs kvs1 hp hn name]
  rw [duplicateFindingsFrom, duplicateFindingsFrom, hs, hf]

theorem reportDuplicateNamesFrom_eq_of_perm (kvs kvs1 : CountMap) (xmlContent : Str)
    (hp : kvs.Perm kvs1) (hn : (keysOf kvs).Nodup) :
    reportDuplicateNamesFrom kvs xmlContent = reportDuplicateNamesFrom kvs1 xmlContent := by
  rw [reportDuplicateNamesFrom_eq, reportDuplicateNamesFrom_eq,
    duplicateFindingsFrom_eq_of_perm kvs kvs1 xmlContent hp hn]

theorem countNames_perm (games games1 : List GameInfo) (hp : games.Perm games1) :
    (countNames games).Perm (countNames games1) := by
  have key : ∀ (gs : List GameInfo) (kv : Str × Int),
      kv ∈ countNames gs ↔ kv.1 ∈ namesOf gs ∧ kv.2 = (occurrences kv.1 gs : Int) := by
    intro gs kv
    obtain ⟨k, c⟩ := kv
    constructor
    · intro h
      refine ⟨(mem_keysOf_countNames gs k).1 (List.mem_map_of_mem Prod.fst h), ?_⟩
      rw [← getCount_countNames]
      exact (getCount_of_mem k c _ (nodup_keysOf_countNames gs) h).symm
    · rintro ⟨h1, h2⟩
      have h3 := mem_getCount_of_mem_keysOf k _ ((mem_keysOf_countNames gs k).2 h1)
      rw [getCount_countNames] at h3
      simp only at h2
      rw [h2]
      exact h3
  have hn : ∀ gs : List GameInfo, (countNames gs).Nodup := fun gs =>
    List.Nodup.of_map Prod.fst (nodup_keysOf_countNames gs)
  rw [List.perm_ext_iff_of_nodup (hn games) (hn games1)]
  intro kv
  have hnames : (namesOf games).Perm (namesOf games1) := hp.map _
  have hc : occurrences kv.1 games = occurrences kv.1 games1 := hp.countP_eq _
  rw [key, key, hnames.mem_iff]
  constructor
  · rintro ⟨h1, h2⟩
    exact ⟨h1, by rw [h2]; exact congrArg Int.ofNat hc⟩
  · rintro ⟨h1, h2⟩
    exact ⟨h1, by rw [h2]; exact (congrArg Int.ofNat hc).symm⟩

/-! ## Duplicate detection: claims -/

/-- C1: a name is a finding of `reportDuplicateNames` exactly when more than one
entity of the sequence has exactly that name, the count of a finding is the
number of entities with that name, and the text written is the rendering of
these findings; for the names A, A, B, B, B the findings are A with count 2 and
B with count 3. -/
theorem reportDuplicateNames_findings_count (games : List GameInfo) (xmlContent : Str) :
    (∀ name : Str, (∃ f ∈ duplicateFindings games xmlContent, f.name = name)
        ↔ 1 < occurrences name games) ∧
    (∀ f ∈ duplicateFindings games xmlContent, f.count = (occurrences f.name games : Int)) ∧
    reportDuplicateNames games xmlContent
      = (if duplicateFindings games xmlContent = []
        then (false, "No duplicate game names found.\n".toList)
        else (true, ((duplicateFindings games xmlContent).map findingLine).flatten)) ∧
    (duplicateFindings
        [⟨['A'], [], []⟩, ⟨['A'], [], []⟩, ⟨['B'], [], []⟩, ⟨['B'], [], []⟩, ⟨['B'], [], []⟩]
        xmlContent).map (fun f => (f.name, f.count)) = [(['A'], 2), (['B'], 3)] := by
  refine ⟨?_, ?_, ?_, ?_⟩
  · intro name
    rw [← mem_names_duplicateFindings games xmlContent name, List.mem_map]
  · intro f hf
    simp only [duplicateFindings, duplicateFindingsFrom, List.mem_map] at hf
    obtain ⟨n, -, rfl⟩ := hf
    simp [findingFor, getCount_countNames]
  · exact reportDuplicateNamesFrom_eq (countNames games) xmlContent
  · rw [duplicateFindings, map_name_count_duplicateFindingsFrom]
    decide

/-- C2: the names of the findings of `reportDuplicateNames` are in strictly
ascending lexicographic order, so no name is reported twice. -/
theorem reportDuplicateNames_names_strictly_ascending (games : List GameInfo)
    (xmlContent : Str) :
    List.Pairwise (fun a b : Str => a < b)
      ((duplicateFindings games xmlContent).map Finding.name) := by
  rw [duplicateFindings, map_name_duplicateFindingsFrom]
  have hnd : (sortStrings (collectDuplicates (countNames games) [])).Nodup :=
    (sortStrings_perm _).nodup_iff.2
      (nodup_collectDuplicates _ (nodup_keysOf_countNames games))
  exact List.Sorted.lt_of_le (sortStrings_sorted _) hnd

/-- C3: for a fixed raw text, entity sequences that are permutations of each
other give the identical report (same findings in the same order, same text,
same return value), and so does every iteration order `kvs` of the map of
counts. -/
theorem reportDuplicateNames_perm (games games1 : List GameInfo) (xmlContent : Str)
    (hp : games.Perm games1) :
    reportDuplicateNames games1 xmlContent = reportDuplicateNames games xmlContent ∧
    duplicateFindings games1 xmlContent = duplicateFindings games xmlContent ∧
    ∀ kvs : CountMap, kvs.Perm (countNames games1) →
      reportDuplicateNamesFrom kvs xmlContent = reportDuplicateNames games xmlContent ∧
      duplicateFindingsFrom kvs xmlContent = duplicateFindings games xmlContent := by
  have h : ∀ kvs : CountMap, kvs.Perm (countNames games1) →
      reportDuplicateNamesFrom kvs xmlContent = reportDuplicateNames games xmlContent ∧
      duplicateFindingsFrom kvs xmlContent = duplicateFindings games xmlContent := by
    intro kvs hk
    have hk2 : (countNames games).Perm kvs := (countNames_perm games games1 hp).trans hk.symm
    exact ⟨(reportDuplicateNamesFrom_eq_of_perm _ _ xmlContent hk2
        (nodup_keysOf_countNames games)).symm,
      (duplicateFindingsFrom_eq_of_perm _ _ xmlContent hk2 (nodup_keysOf_countNames games)).symm⟩
  exact ⟨(h _ (List.Perm.refl _)).1, (h _ (List.Perm.refl _)).2, h⟩

/-- Witness of C3: the sequences B, A, A (with index attributes) and A, B, A. -/
theorem reportDuplicateNames_perm_witness :
    ([⟨['B'], [], []⟩, ⟨['A'], ['1'], []⟩, ⟨['A'], [], []⟩] : List GameInfo).Perm
        [⟨['A'], ['1'], []⟩, ⟨['B'], [], []⟩, ⟨['A'], [], []⟩] ∧
    reportDuplicateNames [⟨['A'], ['1'], []⟩, ⟨['B'], [], []⟩, ⟨['A'], [], []⟩]
        "<game name=\"A\"/>".toList
      = reportDuplicateNames [⟨['B'], [], []⟩, ⟨['A'], ['1'], []⟩, ⟨['A'], [], []⟩]
        "<game name=\"A\"/>".toList :=
  ⟨by decide,
    (reportDuplicateNames_perm _ _ _ (by decide)).1⟩

/-! ## The heuristic source locator -/

theorem strFind_isSome_iff (pattern s : Str) (pos : Nat) :
    (strFind pattern s pos).isSome = true ↔ pattern <:+: s := by
  induction s generalizing pos with
  | nil =>
    cases pattern with
    | nil => simp [strFind]
    | cons a t => simp [strFind]
  | cons c cs ih =>
    rw [List.infix_cons_iff, ← ih (pos + 1), ← List.isPrefixOf_iff_prefix]
    by_cases h : pattern.isPrefixOf (c :: cs) = true
    · simp [strFind, h]
    · simp [strFind, h]

theorem popBackCR_nil : popBackCR [] = [] := rfl

theorem popBackCR_concat (l : Str) (x : Char) :
    popBackCR (l ++ [x]) = if x = '\r' then l else l ++ [x] := by
  by_cases h : x = '\r'
  · simp [popBackCR, h]
  · simp [popBackCR, h]

theorem infix_concat_iff_of_getLast (pattern l : Str) (x : Char) (hne : pattern ≠ [])
    (hlast : pattern.getLast? ≠ some x) : pattern <:+: l ++ [x] ↔ pattern <:+: l := by
  constructor
  · rintro ⟨s, t, hst⟩
    rcases List.eq_nil_or_concat t with rfl | ⟨t1, y, rfl⟩
    · exfalso
      apply hlast
      have h1 := congrArg List.getLast? hst
      rw [List.append_nil, List.getLast?_append_of_ne_nil _ hne, List.getLast?_concat] at h1
      exact h1
    · rw [List.concat_eq_append, ← List.append_assoc] at hst
      have h1 := (List.append_inj' hst rfl).1
      exact ⟨s, t1, h1⟩
  · intro h
    exact h.trans (List.infix_append' [] l [x])

theorem infix_popBackCR_iff (pattern l : Str) (hne : pattern ≠ [])
    (hlast : pattern.getLast? ≠ some '\r') : pattern <:+: popBackCR l ↔ pattern <:+: l := by
  rcases List.eq_nil_or_concat l with rfl | ⟨l1, x, rfl⟩
  · rfl
  · rw [List.concat_eq_append, popBackCR_concat]
    by_cases h : x = '\r'
    · rw [if_pos h, h]
      exact (infix_concat_iff_of_getLast pattern l1 '\r' hne hlast).symm
    · rw [if_neg h]

theorem namePattern_ne_nil (name : Str) : namePattern name ≠ [] := by
  simp [namePattern]

theorem namePattern_getLast (name : Str) : (namePattern name).getLast? ≠ some '\r' := by
  have h : namePattern name = ("name=\"".toList ++ name) ++ ['\"'] := rfl
  rw [h, List.getLast?_concat]
  decide

theorem findLinesLoop_eq (pattern : Str) (maxMatches : Nat) (ls : List Str) (lineNumber : Int)
    (lines : List Int) :
    findLinesLoop pattern maxMatches ls lineNumber lines
      = lines ++ (matchNumbers (fun l => (strFind pattern (popBackCR l) 0).isSome) ls
          lineNumber).take (max 1 (maxMatches - lines.length)) := by
  induction ls generalizing lineNumber lines with
  | nil => simp [findLinesLoop, matchNumbers]
  | cons l ls ih =>
    by_cases hm : (strFind pattern (popBackCR l) 0).isSome = true
    · by_cases hlen : lines.length + 1 ≥ maxMatches
      · have h1 : max 1 (maxMatches - lines.length) = 1 := by omega
        simp [findLinesLoop, matchNumbers, hm, hlen, h1]
      · have h1 : max 1 (maxMatches - lines.length)
            = max 1 (maxMatches - (lines ++ [lineNumber + 1]).length) + 1 := by
          simp only [List.length_append, List.length_singleton]
          omega
        simp only [findLinesLoop, matchNumbers, hm, if_true, List.length_append,
          List.length_singleton, hlen, if_false]
        rw [ih, h1]
        simp
    · simp only [findLinesLoop, matchNumbers, hm, if_false]
      exact ih _ _

theorem matchNumbers_congr (test test1 : Str → Bool) (ls : List Str) (n : Int)
    (h : ∀ l ∈ ls, test l = test1 l) : matchNumbers test ls n = matchNumbers test1 ls n := by
  induction ls generalizing n with
  | nil => rfl
  | cons l ls ih =>
    have h1 := h l (List.mem_cons_self l ls)
    have h2 := ih (n + 1) (fun x hx => h x (List.mem_cons_of_mem l hx))
    simp [matchNumbers, h1, h2]

theorem matchNumbers_append_nil (test : Str → Bool) (ls : List Str) (n : Int)
    (h : test [] = false) : matchNumbers test (ls ++ [[]]) n = matchNumbers test ls n := by
  induction ls generalizing n with
  | nil => simp [matchNumbers, h]
  | cons l ls ih => simp [matchNumbers, ih]

theorem textLines_getlines (text : Str) :
    textLines text = getlines text ∨ textLines text = getlines text ++ [[]] := by
  induction text with
  | nil => right; rfl
  | cons c cs ih =>
    by_cases hc : c = '\n'
    · rcases ih with h | h
      · left; simp [textLines, getlines, hc, h]
      · right; simp [textLines, getlines, hc, h]
    · rcases ih with h | h
      · left; simp [textLines, getlines, hc, h]
      · cases hg : getlines cs with
        | nil =>
          left
          rw [hg] at h
          simp [textLines, getlines, hc, h, hg]
        | cons l ls =>
          right
          rw [hg] at h
          simp [textLines, getlines, hc, h, hg]

theorem linesContaining_eq_matchNumbers (pattern text : Str) :
    linesContaining pattern text
      = matchNumbers (fun l => decide (pattern <:+: l)) (textLines text) 0 := by
  have key : ∀ (ls : List Str) (k : Nat),
      ((ls.enumFrom (k + 1)).filter (fun p => decide (pattern <:+: p.2))).map
          (fun p => (p.1 : Int))
        = matchNumbers (fun l => decide (pattern <:+: l)) ls (k : Int) := by
    intro ls
    induction ls with
    | nil => intro k; rfl
    | cons l ls ih =>
      intro k
      have h1 := ih (k + 1)
      rw [Nat.cast_add, Nat.cast_one] at h1
      by_cases h : pattern <:+: l
      · simp [List.enumFrom_cons, matchNumbers, h, List.filter_cons, h1]
      · simp [List.enumFrom_cons, matchNumbers, h, List.filter_cons, h1]
  exact key (textLines text) 0

theorem findLinesForName_eq (xmlContent name : Str) (maxMatches : Nat) :
    findLinesForName xmlContent name maxMatches
      = (linesContaining (namePattern name) xmlContent).take (max 1 maxMatches) := by
  rw [findLinesForName, findLinesLoop_eq, linesContaining_eq_matchNumbers]
  have hcongr : ∀ ls : List Str,
      matchNumbers (fun l => (strFind (namePattern name) (popBackCR l) 0).isSome) ls 0
        = matchNumbers (fun l => decide (namePattern name <:+: l)) ls 0 := by
    intro ls
    apply matchNumbers_congr
    intro l _
    have h1 := strFind_isSome_iff (namePattern name) (popBackCR l) 0
    rw [infix_popBackCR_iff _ _ (namePattern_ne_nil name) (namePattern_getLast name)] at h1
    by_cases h : namePattern name <:+: l
    · simp [h, h1.2 h]
    · have h2 : ¬ (strFind (namePattern name) (popBackCR l) 0).isSome = true :=
        fun e => h (h1.1 e)
      simp only [h, decide_False]
      simpa using h2
  have hnil : (fun l : Str => decide (namePattern name <:+: l)) [] = false := by
    simp [namePattern_ne_nil]
  simp only [List.nil_append, List.length_nil, Nat.sub_zero]
  rw [hcongr]
  rcases textLines_getlines xmlContent with h | h
  · rw [h]
  · rw [h, matchNumbers_append_nil _ _ _ hnil]

theorem length_findLinesForName_le (xmlContent name : Str) (maxMatches : Nat) :
    (findLinesForName xmlContent name maxMatches).length ≤ max 1 maxMatches := by
  rw [findLinesForName_eq]
  exact List.length_take_le _ _

/-! ## Heuristic source locator: claims -/

theorem NUL_ne_newline : NUL ≠ '\n' := by decide

theorem computeLineColLoop_spec (rest : Str) (n p : Nat) (line : Int) (lls : Nat)
    (hlen : n ≤ rest.length)
    (hnul : ∀ a b : Str, rest.take n = a ++ NUL :: b → '\n' ∉ b) :
    ∃ s : Nat, computeLineColLoop (p + n) rest p line lls
        = some (line + ((rest.take n).count '\n' : Int), s) ∧
      ((s = lls ∧ '\n' ∉ rest.take n) ∨
        ∃ a b : Str, rest.take n = a ++ '\n' :: b ∧ '\n' ∉ b ∧ s = p + a.length + 1) := by
  induction rest generalizing n p line lls with
  | nil =>
    have hn : n = 0 := by simpa using hlen
    subst hn
    exact ⟨lls, by simp [computeLineColLoop], Or.inl ⟨rfl, by simp⟩⟩
  | cons c cs ih =>
    cases n with
    | zero => exact ⟨lls, by simp [computeLineColLoop], Or.inl ⟨rfl, by simp⟩⟩
    | succ n =>
      have hlt : p < p + (n + 1) := by omega
      have hw : p + (n + 1) = (p + 1) + n := by omega
      have hlen1 : n ≤ cs.length := by simpa using hlen
      by_cases hc0 : c = NUL
      · have hno : '\n' ∉ cs.take n := hnul [] (cs.take n) (by simp [hc0])
        refine ⟨lls, ?_, Or.inl ⟨rfl, ?_⟩⟩
        · have hcount : (List.take (n + 1) (c :: cs)).count '\n' = 0 := by
            rw [List.take_succ_cons, List.count_eq_zero]
            intro hmem
            rcases List.mem_cons.1 hmem with h | h
            · exact NUL_ne_newline (hc0 ▸ h.symm)
            · exact hno h
          rw [hcount]
          simp [computeLineColLoop, hc0]
        · rw [List.take_succ_cons]
          intro hmem
          rcases List.mem_cons.1 hmem with h | h
          · exact NUL_ne_newline (hc0 ▸ h.symm)
          · exact hno h
      · have hnul1 : ∀ a b : Str, cs.take n = a ++ NUL :: b → '\n' ∉ b := by
          intro a b hab
          exact hnul (c :: a) b (by simp [hab])
        by_cases hc : c = '\n'
        · obtain ⟨s, hs, hd⟩ := ih n (p + 1) (line + 1) (p + 1) hlen1 hnul1
          refine ⟨s, ?_, Or.inr ?_⟩
          · have hcount : ((List.take (n + 1) (c :: cs)).count '\n' : Int)
                = 1 + ((cs.take n).count '\n' : Int) := by
              rw [List.take_succ_cons, hc, List.count_cons_self]
              push_cast
              ring
            have hstep : computeLineColLoop (p + (n + 1)) (c :: cs) p line lls
                = computeLineColLoop (p + 1 + n) cs (p + 1) (line + 1) (p + 1) := by
              rw [hw]
              have hlt1 : p < p + 1 + n := by omega
              have hnn : ¬ ('\n' = NUL) := fun e => NUL_ne_newline e.symm
              simp only [computeLineColLoop, hlt1, hc, hnn, ne_eq, not_false_eq_true, and_self,
                if_true]
            rw [hstep, hs, hcount]
            congr 2
            ring
          · rcases hd with ⟨hs1, hno⟩ | ⟨a, b, hab, hnb, hs1⟩
            · exact ⟨[], cs.take n, by simp [hc], hno, by simp [hs1]⟩
            · refine ⟨c :: a, b, by simp [hab], hnb, ?_⟩
              simp only [List.length_cons]
              omega
        · obtain ⟨s, hs, hd⟩ := ih n (p + 1) line lls hlen1 hnul1
          refine ⟨s, ?_, ?_⟩
          · have hcount : (List.take (n + 1) (c :: cs)).count '\n' = (cs.take n).count '\n' := by
              rw [List.take_succ_cons, List.count_cons_of_ne (fun e => hc e.symm)]
            have hstep : computeLineColLoop (p + (n + 1)) (c :: cs) p line lls
                = computeLineColLoop (p + 1 + n) cs (p + 1) line lls := by
              rw [hw]
              have hlt1 : p < p + 1 + n := by omega
              simp only [computeLineColLoop, hlt1, hc0, hc, ne_eq, not_false_eq_true, and_self,
                if_true, if_false]
            rw [hstep, hs, hcount]
          · rcases hd with ⟨hs1, hno⟩ | ⟨a, b, hab, hnb, hs1⟩
            · left
              refine ⟨hs1, ?_⟩
              rw [List.take_succ_cons]
              intro hmem
              rcases List.mem_cons.1 hmem with h | h
              · exact hc h.symm
              · exact hno h
            · right
              refine ⟨c :: a, b, by simp [hab], hnb, ?_⟩
              simp only [List.length_cons]
              omega

theorem computeLineCol_spec (buffer : Str) (offset : Nat) (hlen : offset ≤ buffer.length)
    (hnul : ∀ a b : Str, buffer.take offset = a ++ NUL :: b → '\n' ∉ b) :
    ∃ s : Nat, IsLineStart (buffer.take offset) s ∧ s ≤ offset ∧
      computeLineCol buffer offset
        = some (1 + ((buffer.take offset).count '\n' : Int),
            toInt32 (toInt32 ((offset : Int) - (s : Int)) + 1)) := by
  obtain ⟨s, hs, hd⟩ := computeLineColLoop_spec buffer offset 0 1 0 hlen hnul
  rw [Nat.zero_add] at hs
  have hstart : IsLineStart (buffer.take offset) s := by
    rcases hd with ⟨h1, h2⟩ | ⟨a, b, h1, h2, h3⟩
    · exact Or.inl ⟨h1, h2⟩
    · exact Or.inr ⟨a, b, h1, h2, by omega⟩
  have hle : s ≤ offset := by
    rcases hd with ⟨h1, -⟩ | ⟨a, b, h1, -, h3⟩
    · omega
    · have h4 := congrArg List.length h1
      rw [List.length_take, List.length_append, List.length_cons] at h4
      omega
  exact ⟨s, hstart, hle, by simp [computeLineCol, hs]⟩

theorem hnul_of_not_mem (scanned : Str) (h : NUL ∉ scanned) :
    ∀ a b : Str, scanned = a ++ NUL :: b → '\n' ∉ b := by
  intro a b hab
  exact absurd (by simp [hab]) h

theorem hnul_of_terminated (bytes : Str) (offset : Nat) (h : NUL ∉ bytes.take offset) :
    ∀ a b : Str, (bytes ++ [NUL]).take offset = a ++ NUL :: b → '\n' ∉ b := by
  intro a b hab
  by_cases hle : offset ≤ bytes.length
  · rw [List.take_append_of_le_length hle] at hab
    exact hnul_of_not_mem _ h a b hab
  · have h1 : bytes.take offset = bytes := List.take_of_length_le (by omega)
    rw [h1] at h
    have h2 : (bytes ++ [NUL]).take offset = bytes ++ [NUL] :=
      List.take_of_length_le (by simp; omega)
    rw [h2] at hab
    rcases List.eq_nil_or_concat b with rfl | ⟨b1, y, rfl⟩
    · simp
    · exfalso
      rw [List.concat_eq_append, ← List.cons_append, ← List.append_assoc] at hab
      have h3 := (List.append_inj' hab rfl).1
      exact h (by simp [h3])

theorem mem_dropWhile_after_NUL (a b : Str) (x : Char) (hx : x ∈ b) :
    x ∈ (a ++ NUL :: b).dropWhile (fun c => c != NUL) := by
  induction a with
  | nil => simp [List.dropWhile_cons, hx]
  | cons c cs ih =>
    by_cases hc : c = NUL
    · simp [List.dropWhile_cons, hc, hx]
    · simpa [List.dropWhile_cons, hc] using ih

theorem hnul_of_noNewlineAfterNUL (scanned : Str) (h : NoNewlineAfterNUL scanned) :
    ∀ a b : Str, scanned = a ++ NUL :: b → '\n' ∉ b := by
  intro a b hab hmem
  apply h
  rw [hab]
  exact mem_dropWhile_after_NUL a b '\n' hmem

theorem noNewlineAfterNUL_of_not_mem (scanned : Str) (h : NUL ∉ scanned) :
    NoNewlineAfterNUL scanned := by
  have h1 : scanned.dropWhile (fun c => c != NUL) = [] := by
    rw [List.dropWhile_eq_nil_iff]
    intro x hx
    have : x ≠ NUL := fun e => h (e ▸ hx)
    simpa using this
  simp [NoNewlineAfterNUL, h1]

theorem extractLineTextLoop_eq (ls : List Str) (lineNo : Int) (j : Nat) :
    extractLineTextLoop (lineNo + 1 + (j : Int)) ls lineNo = popBackCR (ls.getD j []) := by
  induction ls generalizing lineNo j with
  | nil => simp [extractLineTextLoop, popBackCR_nil]
  | cons l ls ih =>
    cases j with
    | zero => simp [extractLineTextLoop]
    | succ j =>
      have hne : ¬ (lineNo + 1 = lineNo + 1 + ((j + 1 : Nat) : Int)) := by
        push_cast
        omega
      have harith : lineNo + 1 + ((j + 1 : Nat) : Int) = (lineNo + 1) + 1 + (j : Int) := by
        push_cast
        ring
      simp only [extractLineTextLoop, hne, if_false, List.getD_cons_succ]
      rw [harith]
      exact ih (lineNo + 1) j

theorem getD_append_default (ls : List Str) (j : Nat) :
    (ls ++ [[]]).getD j [] = ls.getD j [] := by
  induction ls generalizing j with
  | nil =>
    cases j with
    | zero => rfl
    | succ j => simp
  | cons l ls ih =>
    cases j with
    | zero => rfl
    | succ j => simpa using ih j

theorem getD_getlines (text : Str) (j : Nat) :
    (getlines text).getD j [] = (textLines text).getD j [] := by
  rcases textLines_getlines text with h | h
  · rw [h]
  · rw [h, getD_append_default]

theorem extractLineText_eq (text : Str) (j : Nat) :
    extractLineText text ((j : Int) + 1) = popBackCR ((textLines text).getD j []) := by
  have h := extractLineTextLoop_eq (getlines text) 0 j
  rw [getD_getlines] at h
  rw [extractLineText, ← h]
  congr 1
  ring

theorem popBackCR_spec (l : Str) :
    (l.getLast? ≠ some '\r' ∧ popBackCR l = l) ∨ l = popBackCR l ++ ['\r'] := by
  rcases List.eq_nil_or_concat l with rfl | ⟨l1, x, rfl⟩
  · left
    exact ⟨by simp, rfl⟩
  · rw [List.concat_eq_append, popBackCR_concat]
    by_cases h : x = '\r'
    · right
      rw [if_pos h, h]
    · left
      rw [if_neg h, List.getLast?_concat]
      exact ⟨fun e => h (Option.some.inj e), rfl⟩

theorem popBackCR_subset (l : Str) (c : Char) (h : c ∈ popBackCR l) : c ∈ l := by
  rcases popBackCR_spec l with ⟨-, h1⟩ | h1
  · rw [h1] at h
    exact h
  · rw [h1]
    exact List.mem_append_left _ h

theorem textLines_ne_nil (text : Str) : textLines text ≠ [] := by
  cases text with
  | nil => simp [textLines]
  | cons c cs =>
    by_cases hc : c = '\n'
    · simp [textLines, hc]
    · cases h : textLines cs with
      | nil => simp [textLines, hc, h]
      | cons l ls => simp [textLines, hc, h]

theorem textLines_no_newline (text : Str) : ∀ l ∈ textLines text, '\n' ∉ l := by
  induction text with
  | nil => simp [textLines]
  | cons c cs ih =>
    by_cases hc : c = '\n'
    · intro l hl
      simp only [textLines, hc, if_true, List.mem_cons] at hl
      rcases hl with rfl | hl
      · simp
      · exact ih l hl
    · cases h : textLines cs with
      | nil => exact absurd h (textLines_ne_nil cs)
      | cons l0 ls =>
        rw [h] at ih
        intro l hl
        simp only [textLines, hc, if_false, h, List.mem_cons] at hl
        rcases hl with rfl | hl
        · intro hmem
          rcases List.mem_cons.1 hmem with h1 | h1
          · exact hc h1.symm
          · exact ih l0 (List.mem_cons_self _ _) h1
        · exact ih l (List.mem_cons_of_mem _ hl)

theorem textLines_append_newline (x y : Str) :
    textLines (x ++ '\n' :: y) = textLines x ++ textLines y := by
  induction x with
  | nil => simp [textLines]
  | cons c cs ih =>
    by_cases hc : c = '\n'
    · simp [textLines, hc, ih]
    · cases h : textLines cs with
      | nil => exact absurd h (textLines_ne_nil cs)
      | cons l0 ls =>
        rw [h] at ih
        simp [textLines, hc, ih, h]

theorem length_textLines (x : Str) : (textLines x).length = x.count '\n' + 1 := by
  induction x with
  | nil => rfl
  | cons c cs ih =>
    by_cases hc : c = '\n'
    · simp [textLines, hc, ih]
    · cases h : textLines cs with
      | nil => exact absurd h (textLines_ne_nil cs)
      | cons l0 ls =>
        rw [h] at ih
        have hc1 : ¬ '\n' = c := fun e => hc e.symm
        simp only [textLines, hc, if_false, h, List.length_cons,
          List.count_cons_of_ne hc1]
        simpa using ih

theorem head_textLines (text : Str) :
    (textLines text).getD 0 [] = text.takeWhile (fun c => c != '\n') := by
  induction text with
  | nil => rfl
  | cons c cs ih =>
    by_cases hc : c = '\n'
    · simp [textLines, hc]
    · cases h : textLines cs with
      | nil => exact absurd h (textLines_ne_nil cs)
      | cons l0 ls =>
        rw [h] at ih
        simp only [List.getD_cons_zero] at ih
        simp [textLines, hc, h, ih]

theorem getD_textLines_after (a rest : Str) :
    (textLines (a ++ '\n' :: rest)).getD (a.count '\n' + 1) []
      = rest.takeWhile (fun c => c != '\n') := by
  rw [textLines_append_newline, ← length_textLines, ← head_textLines]
  simp [List.getD_eq_getElem?_getD, List.getElem?_append_right]

theorem textLines_intercalate (text : Str) :
    ['\n'].intercalate (textLines text) = text := by
  induction text with
  | nil => rfl
  | cons c cs ih =>
    by_cases hc : c = '\n'
    · cases h : textLines cs with
      | nil => exact absurd h (textLines_ne_nil cs)
      | cons l0 ls =>
        rw [h] at ih
        simp only [textLines, hc, if_true, h]
        rw [← ih]
        simp [List.intercalate, List.intersperse]
    · cases h : textLines cs with
      | nil => exact absurd h (textLines_ne_nil cs)
      | cons l0 ls =>
        rw [h] at ih
        simp only [textLines, hc, if_false, h]
        rw [← ih]
        cases ls with
        | nil => simp [List.intercalate, List.intersperse]
        | cons l1 ls => simp [List.intercalate, List.intersperse]

/-! ## Line extractor: claims -/

/-- The two scanners agree on a buffer in which no newline follows a NUL byte
before the offset: the line that `computeLineCol` reports is 1 + the number of
newlines before the offset, and `extractLineText` of that line is the text
from the start of the line up to the next newline or the end of the text, with
one trailing carriage return stripped. -/
theorem computeLineCol_extractLineText_agree (text : Str) (offset : Nat)
    (hoff : offset ≤ text.length) (hnul : NoNewlineAfterNUL (text.take offset)) :
    ∃ (line col : Int) (s : Nat),
      computeLineCol (text ++ [NUL]) offset = some (line, col) ∧
      line = 1 + ((text.take offset).count '\n' : Int) ∧
      IsLineStart (text.take offset) s ∧
      col = toInt32 (toInt32 ((offset : Int) - (s : Int)) + 1) ∧
      ((((text.drop s).takeWhile (fun c => c != '\n')).getLast? ≠ some '\r' ∧
          extractLineText text line = (text.drop s).takeWhile (fun c => c != '\n')) ∨
        (text.drop s).takeWhile (fun c => c != '\n') = extractLineText text line ++ ['\r']) := by
  have htake : (text ++ [NUL]).take offset = text.take offset :=
    List.take_append_of_le_length hoff
  obtain ⟨s, hstart, -, hres⟩ := computeLineCol_spec (text ++ [NUL]) offset
    (by simp; omega) (by rw [htake]; exact hnul_of_noNewlineAfterNUL _ hnul)
  rw [htake] at hstart hres
  refine ⟨_, _, s, hres, rfl, hstart, rfl, ?_⟩
  have hline : extractLineText text (1 + ((text.take offset).count '\n' : Int))
      = popBackCR ((text.drop s).takeWhile (fun c => c != '\n')) := by
    rcases hstart with ⟨hs, hno⟩ | ⟨a, b, hab, hnb, hs⟩
    · have h0 : (text.take offset).count '\n' = 0 := List.count_eq_zero.2 hno
      have h1 := extractLineText_eq text 0
      rw [head_textLines] at h1
      rw [h0, hs, List.drop_zero, ← h1]
      congr 1
    · have htext : text = a ++ '\n' :: (b ++ text.drop offset) := by
        conv_lhs => rw [← List.take_append_drop offset text, hab]
        simp
      have hcount : (text.take offset).count '\n' = a.count '\n' + 1 := by
        rw [hab, List.count_append, List.count_cons_self, List.count_eq_zero.2 hnb]
      have hdrop : text.drop s = b ++ text.drop offset := by
        conv_lhs => rw [htext, hs]
        rw [show a ++ '\n' :: (b ++ text.drop offset)
          = (a ++ ['\n']) ++ (b ++ text.drop offset) by simp]
        exact List.drop_left' (by simp)
      have h1 := extractLineText_eq text (a.count '\n' + 1)
      have h2 := getD_textLines_after a (b ++ text.drop offset)
      rw [← htext] at h2
      rw [h2, ← hdrop] at h1
      rw [hcount, ← h1]
      congr 1
      push_cast
      ring
  rw [hline]
  exact popBackCR_spec _

/-- The two scanners disagree on a buffer with a newline after a NUL byte: in
the text NUL, "\nx" the offset 2 (the letter x) has one newline before it and
lies on the line "x", but `computeLineCol` reports line 1, and `extractLineText`
of that line is the line holding the NUL byte. -/
theorem computeLineCol_extractLineText_disagree :
    computeLineCol ([NUL, '\n', 'x'] ++ [NUL]) 2 = some (1, 3) ∧
    (1 + ((([NUL, '\n', 'x'] : Str).take 2).count '\n' : Int)) = 2 ∧
    extractLineText [NUL, '\n', 'x'] 1 = [NUL] ∧
    (([NUL, '\n', 'x'] : Str).drop 2).takeWhile (fun c => c != '\n') = ['x'] := by
  decide

/-- C8: on `sampleFile` the parser fails at offset 35, which has two newlines
before it and lies on line 3, column 12, of the text; `main` reads the buffer
the parser has written NUL bytes into, reports line 2, column 29, and prints
the text of line 2 with the caret under column 29. On the unchanged buffer
`computeLineCol` gives (3, 12). -/
theorem main_parse_error_position :
    (main [['x'], ['f']] (fun _ => some sampleFile)
      (fun _ => ParseResult.failure "expected ' or \"".toList 35 sampleBufferAfterParse)).map
        Run.err
      = some ("XML parse error: expected ' or \"\nAt line 2, column 29\n".toList
          ++ "<game name=\"A\"/>\n".toList ++ List.replicate 28 ' ' ++ "^\n".toList) ∧
    computeLineCol sampleBufferAfterParse 35 = some (2, 29) ∧
    computeLineCol (sampleFile ++ [NUL]) 35 = some (3, 12) ∧
    (1 + ((sampleFile.take 35).count '\n' : Int)) = 3 ∧
    extractLineText sampleFile 3 = "<game name=B/>".toList ∧
    extractLineText sampleFile 2 = "<game name=\"A\"/>".toList ∧
    sampleBufferAfterParse.length = (sampleFile ++ [NUL]).length ∧
    (List.zip sampleBufferAfterParse (sampleFile ++ [NUL])).all
      (fun p => decide (p.1 = p.2 ∨ p.1 = NUL)) = true := by
  decide

/-- C9 (amended): for every text and every line number n >= 1, the result of
`extractLineText` is the n-th line of the text (empty when there is none) with
one trailing carriage return stripped; it never contains a newline, it is empty
when n exceeds the number of lines, and it ends in a carriage return exactly
when the line ends in two carriage returns. -/
theorem extractLineText_nth_line (text : Str) (n : Int) (hn : 1 ≤ n) :
    ((((textLines text).getD (n - 1).toNat []).getLast? ≠ some '\r' ∧
        extractLineText text n = (textLines text).getD (n - 1).toNat []) ∨
      (textLines text).getD (n - 1).toNat [] = extractLineText text n ++ ['\r']) ∧
    '\n' ∉ extractLineText text n ∧
    (((textLines text).length : Int) < n → extractLineText text n = []) ∧
    ((extractLineText text n).getLast? = some '\r' ↔
      ∃ l0 : Str, (textLines text).getD (n - 1).toNat [] = l0 ++ ['\r', '\r']) := by
  obtain ⟨j, rfl⟩ : ∃ j : Nat, n = (j : Int) + 1 := ⟨(n - 1).toNat, by omega⟩
  have hj : ((j : Int) + 1 - 1).toNat = j := by omega
  rw [hj, extractLineText_eq]
  have hmem : (textLines text).getD j [] = [] ∨ (textLines text).getD j [] ∈ textLines text := by
    by_cases h : j < (textLines text).length
    · right
      rw [List.getD_eq_getElem _ _ h]
      exact List.getElem_mem h
    · left
      exact List.getD_eq_default _ _ (by omega)
  refine ⟨popBackCR_spec _, ?_, ?_, ?_⟩
  · intro h
    have h1 := popBackCR_subset _ _ h
    rcases hmem with h2 | h2
    · rw [h2] at h1
      simp at h1
    · exact textLines_no_newline text _ h2 h1
  · intro h
    have h1 : (textLines text).getD j [] = [] := List.getD_eq_default _ _ (by omega)
    rw [h1, popBackCR_nil]
  · rcases popBackCR_spec ((textLines text).getD j []) with ⟨h1, h2⟩ | h1
    · rw [h2]
      constructor
      · intro h
        exact absurd h h1
      · rintro ⟨l0, h⟩
        exfalso
        apply h1
        rw [h, show l0 ++ ['\r', '\r'] = (l0 ++ ['\r']) ++ ['\r'] by simp,
          List.getLast?_concat]
    · rw [List.getLast?_eq_some_iff]
      constructor
      · rintro ⟨l0, h⟩
        refine ⟨l0, ?_⟩
        rw [h1, h]
        simp
      · rintro ⟨l0, h⟩
        refine ⟨l0, ?_⟩
        have h3 : (l0 ++ ['\r']) ++ ['\r']
            = popBackCR ((textLines text).getD j []) ++ ['\r'] := by
          rw [← h1, h]
          simp
        exact ((List.append_inj' h3 rfl).1).symm

/-- Witness of C9: the second line of "ab\r\ncd\r\n" is extracted as "cd". -/
theorem extractLineText_nth_line_witness :
    extractLineText "ab\r\ncd\r\n".toList 2 = ['c', 'd'] ∧
    '\n' ∉ extractLineText "ab\r\ncd\r\n".toList 2 :=
  ⟨by decide, (extractLineText_nth_line "ab\r\ncd\r\n".toList 2 (by decide)).2.1⟩

/-- Counterexample to C9 as stated: the first line of "a\r\r\n" is extracted as
"a\r", which ends in a carriage return. -/
theorem extractLineText_nth_line_counterexample :
    extractLineText ['a', '\r', '\r', '\n'] 1 = ['a', '\r'] ∧
    (extractLineText ['a', '\r', '\r', '\n'] 1).getLast? = some '\r' := by
  decide

/-! ## The exit status -/

theorem computeLineColLoop_inBounds (whereOff : Nat) (rest : Str) (p : Nat) (line : Int)
    (lls : Nat) (h : whereOff ≤ p + rest.length) :
    (computeLineColLoop whereOff rest p line lls).isSome = true := by
  induction rest generalizing p line lls with
  | nil =>
    have hp : ¬ p < whereOff := by simpa using h
    simp [computeLineColLoop, hp]
  | cons c cs ih =>
    have h1 : whereOff ≤ (p + 1) + cs.length := by
      simp only [List.length_cons] at h
      omega
    rw [computeLineColLoop]
    by_cases hc0 : p < whereOff ∧ c ≠ NUL
    · rw [if_pos hc0]
      by_cases hc : c = '\n'
      · rw [if_pos hc]
        exact ih (p + 1) (line + 1) (p + 1) h1
      · rw [if_neg hc]
        exact ih (p + 1) line lls h1
    · rw [if_neg hc0]
      rfl

theorem computeLineCol_inBounds (buffer : Str) (whereOff : Nat) (h : whereOff ≤ buffer.length) :
    ∃ lc : Int × Int, computeLineCol buffer whereOff = some lc := by
  have h1 := computeLineColLoop_inBounds whereOff buffer 0 1 0 (by omega)
  cases hl : computeLineColLoop whereOff buffer 0 1 0 with
  | none => rw [hl] at h1; exact absurd h1 (by simp)
  | some r => exact ⟨(r.1, toInt32 (toInt32 ((whereOff : Int) - (r.2 : Int)) + 1)),
    by simp [computeLineCol, hl]⟩

theorem occurrences_pos_iff (name : Str) (games : List GameInfo) :
    0 < occurrences name games ↔ name ∈ namesOf games := by
  simp [occurrences, namesOf, List.countP_pos_iff]

theorem nodup_namesOf_iff (games : List GameInfo) :
    (namesOf games).Nodup ↔ ∀ name : Str, occurrences name games ≤ 1 := by
  induction games with
  | nil => simp [namesOf, occurrences]
  | cons g games ih =>
    have hcons : ∀ name : Str, occurrences name (g :: games)
        = occurrences name games + (if g.name = name then 1 else 0) := by
      intro name
      simp [occurrences, List.countP_cons]
    have hn : namesOf (g :: games) = g.name :: namesOf games := rfl
    rw [hn, List.nodup_cons, ih, ← occurrences_pos_iff]
    constructor
    · rintro ⟨h1, h2⟩ name
      rw [hcons]
      by_cases hg : g.name = name
      · rw [if_pos hg, ← hg]
        omega
      · rw [if_neg hg]
        exact h2 name
    · intro h
      constructor
      · have := h g.name
        rw [hcons, if_pos rfl] at this
        omega
      · intro name
        have := h name
        rw [hcons] at this
        omega

theorem reportDuplicateNames_fst (games : List GameInfo) (xmlContent : Str) :
    (reportDuplicateNames games xmlContent).1 = !decide ((namesOf games).Nodup) := by
  have hiff : duplicateFindings games xmlContent = [] ↔ (namesOf games).Nodup := by
    rw [nodup_namesOf_iff]
    constructor
    · intro h name
      by_contra hlt
      have h1 := (mem_names_duplicateFindings games xmlContent name).2 (by omega)
      rw [h] at h1
      simp at h1
    · intro h
      by_contra hne
      obtain ⟨f, hf⟩ := List.exists_mem_of_ne_nil _ hne
      have h1 := (mem_names_duplicateFindings games xmlContent f.name).1
        (List.mem_map_of_mem Finding.name hf)
      have := h f.name
      omega
  rw [reportDuplicateNames, reportDuplicateNamesFrom_eq]
  by_cases hnd : (namesOf games).Nodup
  · have h := hiff.2 hnd
    rw [duplicateFindings] at h
    simp [h, hnd]
  · have h : ¬ duplicateFindingsFrom (countNames games) xmlContent = [] :=
      fun e => hnd (hiff.1 e)
    simp [h, hnd]

theorem main_status (argv : List Str) (fs : Str → Option Str) (parse : Str → ParseResult)
    (hparse : ParserInBounds parse) :
    (main argv fs parse).map Run.status = some (statusOf (outcomeOf argv fs parse)) := by
  by_cases hargs : argv.length < 2
  · simp only [main, outcomeOf, hargs, if_true, statusOf, Option.map_some']
  · cases hfs : fs (argv.getD 1 []) with
    | none =>
      simp only [main, outcomeOf, hargs, if_false, loadFileToString, hfs, statusOf,
        Option.map_some']
    | some xml =>
      cases hp : parse (xml ++ [NUL]) with
      | failure what whereOff after =>
        obtain ⟨⟨line, col⟩, hlc⟩ :=
          computeLineCol_inBounds after whereOff (hparse _ _ _ _ hp)
        simp only [main, outcomeOf, hargs, if_false, loadFileToString, hfs, hp, hlc, statusOf,
          Option.map_some']
      | success doc =>
        cases hg : parseGamesFromDoc doc with
        | error what =>
          simp only [main, outcomeOf, hargs, if_false, loadFileToString, hfs, hp, hg, statusOf,
            Option.map_some']
        | ok games =>
          have h1 := reportDuplicateNames_fst games xml
          simp only [main, outcomeOf, hargs, if_false, loadFileToString, hfs, hp, hg,
            Option.map_some', h1]
          by_cases hnd : (namesOf games).Nodup
          · simp [statusOf, hnd]
          · simp [statusOf, hnd]

/-! ## Exit status: claims -/

/-- C10 (amended): every run with a parser whose error offsets point into the
buffer ends with an exit status, which is 1 for each failure (usage error, file
that cannot be opened, structural parse failure, missing menu root), 2 when
duplicates are found and 0 when there are none. -/
theorem main_exit_status (argv : List Str) (fs : Str → Option Str)
    (parse : Str → ParseResult) (hparse : ParserInBounds parse) :
    (main argv fs parse).map Run.status = some (statusOf (outcomeOf argv fs parse)) ∧
    statusOf Outcome.usageError = 1 ∧ statusOf Outcome.fileFailure = 1 ∧
    statusOf Outcome.parseFailure = 1 ∧ statusOf Outcome.missingRoot = 1 ∧
    statusOf Outcome.duplicatesFound = 2 ∧ statusOf Outcome.noDuplicates = 0 :=
  ⟨main_status argv fs parse hparse, rfl, rfl, rfl, rfl, rfl, rfl⟩

/-- Witness of C10: a run on a file that the parser rejects at offset 1 ends
with status 1. -/
theorem main_exit_status_witness :
    ParserInBounds (fun _ => ParseResult.failure ['e'] 1 ['<', NUL]) ∧
    (main [['x'], ['f']] (fun _ => some ['<'])
      (fun _ => ParseResult.failure ['e'] 1 ['<', NUL])).map Run.status
      = some (statusOf Outcome.parseFailure) :=
  ⟨fun _ _ _ _ h => by cases h; decide,
    (main_exit_status [['x'], ['f']] (fun _ => some ['<'])
      (fun _ => ParseResult.failure ['e'] 1 ['<', NUL])
      (fun _ _ _ _ h => by cases h; decide)).1⟩

/-- Counterexample to C10 as stated: a run without arguments (usage error), a
run on a file that cannot be opened and a run on a file the parser rejects are
three different outcomes with the same exit status 1. -/
theorem main_exit_status_counterexample :
    outcomeOf [] (fun _ => none) (fun _ => ParseResult.failure [] 0 [NUL])
      = Outcome.usageError ∧
    outcomeOf [['x'], ['f']] (fun _ => none) (fun _ => ParseResult.failure [] 0 [NUL])
      = Outcome.fileFailure ∧
    outcomeOf [['x'], ['f']] (fun _ => some ['<']) (fun _ => ParseResult.failure ['e'] 1 ['<', NUL])
      = Outcome.parseFailure ∧
    (main [] (fun _ => none) (fun _ => ParseResult.failure [] 0 [NUL])).map Run.status
      = some 1 ∧
    (main [['x'], ['f']] (fun _ => none) (fun _ => ParseResult.failure [] 0 [NUL])).map
      Run.status = some 1 ∧
    (main [['x'], ['f']] (fun _ => some ['<'])
      (fun _ => ParseResult.failure ['e'] 1 ['<', NUL])).map Run.status = some 1 := by
  decide

/-! ## The return value and the finding invariant: claims -/

theorem mem_duplicateFindings (games : List GameInfo) (xmlContent : Str) (f : Finding)
    (hf : f ∈ duplicateFindings games xmlContent) :
    1 < occurrences f.name games ∧ f.count = (occurrences f.name games : Int) ∧
      f.lines = findLinesForName xmlContent f.name (occurrences f.name games) := by
  have h1 := (mem_names_duplicateFindings games xmlContent f.name).1
    (List.mem_map_of_mem Finding.name hf)
  simp only [duplicateFindings, duplicateFindingsFrom, List.mem_map] at hf
  obtain ⟨n, -, rfl⟩ := hf
  refine ⟨h1, ?_, ?_⟩
  · simp [findingFor, getCount_countNames]
  · simp [findingFor, getCount_countNames]

/-- C11: `reportDuplicateNames` returns false, writing only the line "No
duplicate game names found.", exactly when no name occurs in more than one
entity, and returns true otherwise; after a successful parse `main` ends with
status 0 in the first case and 2 in the second. -/
theorem reportDuplicateNames_return (games : List GameInfo) (xmlContent : Str) :
    ((reportDuplicateNames games xmlContent).1 = false ↔
      ∀ name : Str, occurrences name games ≤ 1) ∧
    ((∀ name : Str, occurrences name games ≤ 1) →
      reportDuplicateNames games xmlContent
        = (false, "No duplicate game names found.\n".toList)) ∧
    ((∃ name : Str, 1 < occurrences name games) →
      (reportDuplicateNames games xmlContent).1 = true) ∧
    ∀ (argv : List Str) (fs : Str → Option Str) (parse : Str → ParseResult) (doc : XmlNode),
      2 ≤ argv.length → fs (argv.getD 1 []) = some xmlContent →
      parse (xmlContent ++ [NUL]) = ParseResult.success doc →
      parseGamesFromDoc doc = Except.ok games →
      (main argv fs parse).map Run.status
        = some (if (reportDuplicateNames games xmlContent).1 = true then 2 else 0) := by
  have hfst := reportDuplicateNames_fst games xmlContent
  have hnd := nodup_namesOf_iff games
  refine ⟨?_, ?_, ?_, ?_⟩
  · rw [hfst, ← hnd]
    simp
  · intro h
    have h1 : duplicateFindings games xmlContent = [] := by
      by_contra hne
      obtain ⟨f, hf⟩ := List.exists_mem_of_ne_nil _ hne
      have h2 := (mem_duplicateFindings games xmlContent f hf).1
      have h3 := h f.name
      omega
    rw [duplicateFindings] at h1
    rw [reportDuplicateNames, reportDuplicateNamesFrom_eq, if_pos h1]
  · rintro ⟨name, hname⟩
    rw [hfst]
    have h1 : ¬ (namesOf games).Nodup := by
      intro h
      have := hnd.1 h name
      omega
    simp [h1]
  · intro argv fs parse doc hargs hfs hp hg
    have hargs1 : ¬ argv.length < 2 := by omega
    simp only [main, hargs1, if_false, loadFileToString, hfs, hp, hg, Option.map_some']

/-- Witness of C11: the names A, A give true and exit status 2. -/
theorem reportDuplicateNames_return_witness :
    (reportDuplicateNames [⟨['A'], [], []⟩, ⟨['A'], [], []⟩] []).1 = true ∧
    (main [['x'], ['f']] (fun _ => some [])
      (fun _ => ParseResult.success (XmlNode.mk [] [] [XmlNode.mk "menu".toList []
        [XmlNode.mk "game".toList [⟨"name".toList, ['A']⟩] [],
         XmlNode.mk "game".toList [⟨"name".toList, ['A']⟩] []]]))).map Run.status
      = some 2 :=
  ⟨(reportDuplicateNames_return [⟨['A'], [], []⟩, ⟨['A'], [], []⟩] []).2.2.1
      ⟨['A'], by decide⟩,
    ((reportDuplicateNames_return [⟨['A'], [], []⟩, ⟨['A'], [], []⟩] []).2.2.2
      [['x'], ['f']] (fun _ => some [])
      (fun _ => ParseResult.success (XmlNode.mk [] [] [XmlNode.mk "menu".toList []
        [XmlNode.mk "game".toList [⟨"name".toList, ['A']⟩] [],
         XmlNode.mk "game".toList [⟨"name".toList, ['A']⟩] []]]))
      (XmlNode.mk [] [] [XmlNode.mk "menu".toList []
        [XmlNode.mk "game".toList [⟨"name".toList, ['A']⟩] [],
         XmlNode.mk "game".toList [⟨"name".toList, ['A']⟩] []]])
      (by decide) rfl rfl rfl).trans (by decide)⟩

/-- C14: every finding of `reportDuplicateNames` has a count equal to the number
of entities with its name, and the list of line numbers printed for it is no
longer than that count. -/
theorem finding_invariant (games : List GameInfo) (xmlContent : Str) (f : Finding)
    (hf : f ∈ duplicateFindings games xmlContent) :
    f.count = (occurrences f.name games : Int) ∧ (f.lines.length : Int) ≤ f.count ∧
      f.lines.length ≤ occurrences f.name games := by
  obtain ⟨h1, h2, h3⟩ := mem_duplicateFindings games xmlContent f hf
  have h4 : f.lines.length ≤ occurrences f.name games := by
    rw [h3]
    have := length_findLinesForName_le xmlContent f.name (occurrences f.name games)
    omega
  refine ⟨h2, ?_, h4⟩
  rw [h2]
  exact_mod_cast h4

/-- Witness of C14: the finding for A, A in a text that shows the name once. -/
theorem finding_invariant_witness :
    (⟨['A'], 2, [1]⟩ : Finding)
        ∈ duplicateFindings [⟨['A'], [], []⟩, ⟨['A'], [], []⟩] "name=\"A\"".toList ∧
    (([1] : List Int).length : Int) ≤ 2 :=
  ⟨by decide,
    (finding_invariant [⟨['A'], [], []⟩, ⟨['A'], [], []⟩] "name=\"A\"".toList
      ⟨['A'], 2, [1]⟩ (by decide)).2.1⟩

/-! ## The structural parser adapter -/

theorem cstr_eq_untilNUL (s : Str) : cstr s = untilNUL s := rfl

theorem untilNUL_of_not_mem (value : Str) (h : NUL ∉ value) : untilNUL value = value := by
  rw [untilNUL, List.takeWhile_eq_self_iff]
  intro x hx
  have : x ≠ NUL := fun e => h (e ▸ hx)
  simpa using this

theorem not_mem_untilNUL (value : Str) : NUL ∉ untilNUL value := by
  intro h
  have := List.mem_takeWhile_imp h
  simp at this

theorem parseGamesLoop_eq (siblings : List XmlNode) (games : List GameInfo) :
    parseGamesLoop siblings games
      = games ++ (siblings.filter (fun node => decide (node.name = "game".toList))).filterMap
          entityOf := by
  induction siblings generalizing games with
  | nil => simp [parseGamesLoop]
  | cons node siblings ih =>
    by_cases hn : node.name = "game".toList
    · cases ha : node.first_attribute "name".toList with
      | none =>
        have he : entityOf node = none := by simp only [entityOf, ha]
        simp only [parseGamesLoop, hn, if_true, ha, List.filter_cons, decide_True,
          List.filterMap_cons, he]
        exact ih games
      | some nameAttr =>
        have he : entityOf node = some
            { name := untilNUL nameAttr.value
              indexAttr := ((node.first_attribute "index".toList).map
                (fun a => untilNUL a.value)).getD []
              imageAttr := ((node.first_attribute "image".toList).map
                (fun a => untilNUL a.value)).getD [] } := by
          simp only [entityOf, ha]
        simp only [parseGamesLoop, hn, if_true, ha, List.filter_cons, decide_True,
          List.filterMap_cons, he, cstr_eq_untilNUL]
        rw [ih]
        cases node.first_attribute "index".toList <;>
          cases node.first_attribute "image".toList <;> simp
    · simp only [parseGamesLoop, hn, if_false, List.filter_cons, decide_False]
      exact ih games

theorem parseGamesFromDoc_eq (doc menu : XmlNode)
    (hmenu : doc.first_node "menu".toList = some menu) :
    parseGamesFromDoc doc = Except.ok ((gameElements menu).filterMap entityOf) := by
  simp only [parseGamesFromDoc, hmenu, parseGamesLoop_eq, gameElements, List.nil_append]

/-- C12 (amended): for a document with a menu root, `parseGamesFromDoc` returns,
in document order, one entity for each game element that has a name attribute;
name, index and image are the attribute's value up to its first NUL byte, which
is the whole value when it holds no NUL byte, and index and image are empty
when the attribute is absent; a game element without a name attribute raises
no error and changes neither the entities nor the report. -/
theorem parseGamesFromDoc_entities (doc menu : XmlNode)
    (hmenu : doc.first_node "menu".toList = some menu) :
    parseGamesFromDoc doc = Except.ok ((gameElements menu).filterMap entityOf) ∧
    (∀ node : XmlNode, entityOf node = none ↔ node.first_attribute "name".toList = none) ∧
    (∀ (node : XmlNode) (a : XmlAttribute), node.first_attribute "name".toList = some a →
      ∃ g : GameInfo, entityOf node = some g ∧ g.name = untilNUL a.value ∧
        (∀ b, node.first_attribute "index".toList = some b → g.indexAttr = untilNUL b.value) ∧
        (node.first_attribute "index".toList = none → g.indexAttr = []) ∧
        (∀ b, node.first_attribute "image".toList = some b → g.imageAttr = untilNUL b.value) ∧
        (node.first_attribute "image".toList = none → g.imageAttr = [])) ∧
    (∀ value : Str, NUL ∉ value → untilNUL value = value) ∧
    ∀ (pre post : List XmlNode) (node : XmlNode) (xmlContent : Str),
      node.name = "game".toList → node.first_attribute "name".toList = none →
      parseGamesLoop (pre ++ node :: post) [] = parseGamesLoop (pre ++ post) [] ∧
      reportDuplicateNames (parseGamesLoop (pre ++ node :: post) []) xmlContent
        = reportDuplicateNames (parseGamesLoop (pre ++ post) []) xmlContent := by
  refine ⟨parseGamesFromDoc_eq doc menu hmenu, ?_, ?_, untilNUL_of_not_mem, ?_⟩
  · intro node
    cases h : node.first_attribute "name".toList with
    | none => simp only [entityOf, h]
    | some a => simp only [entityOf, h, reduceCtorEq]
  · intro node a ha
    have he : entityOf node = some
        { name := untilNUL a.value
          indexAttr := ((node.first_attribute "index".toList).map
            (fun a => untilNUL a.value)).getD []
          imageAttr := ((node.first_attribute "image".toList).map
            (fun a => untilNUL a.value)).getD [] } := by
      simp only [entityOf, ha]
    refine ⟨_, he, rfl, ?_, ?_, ?_, ?_⟩
    · intro b hb
      simp only [hb, Option.map_some', Option.getD_some]
    · intro hb
      simp only [hb, Option.map_none', Option.getD_none]
    · intro b hb
      simp only [hb, Option.map_some', Option.getD_some]
    · intro hb
      simp only [hb, Option.map_none', Option.getD_none]
  · intro pre post node xmlContent hname hattr
    have h : parseGamesLoop (pre ++ node :: post) [] = parseGamesLoop (pre ++ post) [] := by
      have he : entityOf node = none := by simp only [entityOf, hattr]
      rw [parseGamesLoop_eq, parseGamesLoop_eq]
      simp [List.filter_append, List.filter_cons, hname, he]
    exact ⟨h, by rw [h]⟩

/-- Witness of C12: a menu with a game named A with an index, a game without a
name and a game named B gives the entities A and B. -/
theorem parseGamesFromDoc_entities_witness :
    parseGamesFromDoc (XmlNode.mk [] [] [XmlNode.mk "menu".toList []
        [XmlNode.mk "game".toList [⟨"name".toList, ['A']⟩, ⟨"index".toList, ['1']⟩] [],
         XmlNode.mk "game".toList [⟨"image".toList, ['i']⟩] [],
         XmlNode.mk "game".toList [⟨"name".toList, ['B']⟩] []]])
      = Except.ok [⟨['A'], ['1'], []⟩, ⟨['B'], [], []⟩] :=
  (parseGamesFromDoc_entities (XmlNode.mk [] [] [XmlNode.mk "menu".toList []
        [XmlNode.mk "game".toList [⟨"name".toList, ['A']⟩, ⟨"index".toList, ['1']⟩] [],
         XmlNode.mk "game".toList [⟨"image".toList, ['i']⟩] [],
         XmlNode.mk "game".toList [⟨"name".toList, ['B']⟩] []]])
      (XmlNode.mk "menu".toList []
        [XmlNode.mk "game".toList [⟨"name".toList, ['A']⟩, ⟨"index".toList, ['1']⟩] [],
         XmlNode.mk "game".toList [⟨"image".toList, ['i']⟩] [],
         XmlNode.mk "game".toList [⟨"name".toList, ['B']⟩] []]) rfl).1.trans rfl

/-- Counterexample to C12 as stated: a game element whose name attribute has the
value "A", NUL, "B" and whose index attribute has the value "1", NUL, "2"
becomes the entity with name "A" and index "1", not with the attributes'
values. -/
theorem parseGamesFromDoc_entities_counterexample :
    parseGamesFromDoc (XmlNode.mk [] [] [XmlNode.mk "menu".toList []
        [XmlNode.mk "game".toList
          [⟨"name".toList, ['A', NUL, 'B']⟩, ⟨"index".toList, ['1', NUL, '2']⟩] []]])
      = Except.ok [⟨['A'], ['1'], []⟩] ∧
    (['A'] : Str) ≠ ['A', NUL, 'B'] ∧ (['1'] : Str) ≠ ['1', NUL, '2'] :=
  ⟨rfl, by decide, by decide⟩

/-- C16 (amended): every entity returned by `parseGamesFromDoc` comes from a
game element of the menu root that has a name attribute, and its key is the
value of that attribute up to its first NUL byte, which may be empty. -/
theorem parseGamesFromDoc_key_present (doc : XmlNode) (games : List GameInfo)
    (hgames : parseGamesFromDoc doc = Except.ok games) (g : GameInfo) (hg : g ∈ games) :
    ∃ (menu node : XmlNode) (nameAttr : XmlAttribute),
      doc.first_node "menu".toList = some menu ∧ node ∈ menu.children ∧
      node.name = "game".toList ∧ node.first_attribute "name".toList = some nameAttr ∧
      g.name = untilNUL nameAttr.value ∧ (NUL ∉ nameAttr.value → g.name = nameAttr.value) := by
  cases hmenu : doc.first_node "menu".toList with
  | none =>
    simp only [parseGamesFromDoc, hmenu] at hgames
    cases hgames
  | some menu =>
    rw [parseGamesFromDoc_eq doc menu hmenu] at hgames
    have hg1 : g ∈ (gameElements menu).filterMap entityOf := by
      rw [Except.ok.inj hgames]
      exact hg
    obtain ⟨node, hnode, hent⟩ := List.mem_filterMap.1 hg1
    have hnode1 := List.mem_filter.1 hnode
    cases ha : node.first_attribute "name".toList with
    | none =>
      simp only [entityOf, ha] at hent
      cases hent
    | some nameAttr =>
      simp only [entityOf, ha, Option.some.injEq] at hent
      have hname : g.name = untilNUL nameAttr.value := by rw [← hent]
      refine ⟨menu, node, nameAttr, rfl, hnode1.1, by simpa using hnode1.2, ha, hname, ?_⟩
      intro hn
      rw [hname, untilNUL_of_not_mem _ hn]

/-- Witness of C16: the entity A of a menu with one game named A. -/
theorem parseGamesFromDoc_key_present_witness :
    ∃ (menu node : XmlNode) (nameAttr : XmlAttribute),
      (XmlNode.mk [] [] [XmlNode.mk "menu".toList []
        [XmlNode.mk "game".toList [⟨"name".toList, ['A']⟩] []]]).first_node "menu".toList
        = some menu ∧ node ∈ menu.children ∧
      node.name = "game".toList ∧ node.first_attribute "name".toList = some nameAttr ∧
      (⟨['A'], [], []⟩ : GameInfo).name = untilNUL nameAttr.value ∧
      (NUL ∉ nameAttr.value → (⟨['A'], [], []⟩ : GameInfo).name = nameAttr.value) :=
  parseGamesFromDoc_key_present (XmlNode.mk [] [] [XmlNode.mk "menu".toList []
    [XmlNode.mk "game".toList [⟨"name".toList, ['A']⟩] []]]) [⟨['A'], [], []⟩] rfl
    ⟨['A'], [], []⟩ (by decide)

/-- Counterexample to C16 as stated: a game element whose name attribute has the
empty value becomes an entity with an empty key. -/
theorem parseGamesFromDoc_key_present_counterexample :
    parseGamesFromDoc (XmlNode.mk [] [] [XmlNode.mk "menu".toList []
        [XmlNode.mk "game".toList [⟨"name".toList, []⟩] []]])
      = Except.ok [⟨[], [], []⟩] ∧
    ¬ ∀ g ∈ ([⟨[], [], []⟩] : List GameInfo), g.name ≠ [] :=
  ⟨rfl, by decide⟩

/-! ## The list of line numbers in the report -/

theorem lineStrLoop_tail (size : Nat) (init : List Int) (last : Int) (i : Nat) (acc : Str)
    (hi : 1 ≤ i) (hsize : i + init.length + 1 = size) :
    lineStrLoop size (init ++ [last]) i acc
      = acc ++ (init.map (fun x => ", ".toList ++ intToStr x)).flatten
          ++ " and ".toList ++ intToStr last := by
  induction init generalizing i acc with
  | nil =>
    have h1 : i > 0 := hi
    have h2 : i + 1 = size := by simpa using hsize
    simp only [List.nil_append, lineStrLoop, h1, h2, if_true, List.map_nil, List.flatten_nil,
      List.append_nil]
  | cons x init ih =>
    have h1 : i > 0 := hi
    have h2 : ¬ (i + 1 = size) := by
      simp only [List.length_cons] at hsize
      omega
    have h3 : (i + 1) + init.length + 1 = size := by
      simp only [List.length_cons] at hsize
      omega
    rw [List.cons_append, lineStrLoop]
    simp only [h1, h2, if_true, if_false]
    rw [ih (i + 1) _ (by omega) h3]
    simp only [List.map_cons, List.flatten_cons, List.append_assoc]

theorem intercalate_cons_map (sep : Str) (first : Str) (rest : List Str) :
    sep.intercalate (first :: rest) = first ++ (rest.map (fun x => sep ++ x)).flatten := by
  induction rest generalizing first with
  | nil => simp [List.intercalate, List.intersperse]
  | cons b rest ih =>
    have h := ih b
    simp only [List.intercalate, List.intersperse, List.flatten_cons, List.map_cons] at h ⊢
    rw [h]
    simp only [List.append_assoc]

/-- C13: the text built for the located line numbers is "(a)" for one number,
"(3, 7 and 12)" for 3, 7, 12, and for two or more numbers the first ones joined
by ", ", then " and " and the last one, inside parentheses. -/
theorem lineStrOf_format :
    (∀ a : Int, lineStrOf [a] = "(".toList ++ intToStr a ++ ")".toList) ∧
    lineStrOf [3, 7, 12] = "(3, 7 and 12)".toList ∧
    (∀ (first : Int) (middle : List Int) (last : Int),
      lineStrOf (first :: middle ++ [last])
        = "(".toList ++ ", ".toList.intercalate ((first :: middle).map intToStr)
            ++ " and ".toList ++ intToStr last ++ ")".toList) ∧
    lineStrOf [] = "()".toList := by
  refine ⟨?_, by decide, ?_, by decide⟩
  · intro a
    simp [lineStrOf, lineStrLoop]
  · intro first middle last
    have h := lineStrLoop_tail (first :: middle ++ [last]).length middle last 1
      ("(".toList ++ intToStr first) (le_refl 1) (by simp; omega)
    have h0 : lineStrLoop (first :: middle ++ [last]).length (first :: middle ++ [last]) 0
        "(".toList
        = lineStrLoop (first :: middle ++ [last]).length (middle ++ [last]) 1
          ("(".toList ++ intToStr first) := by
      rw [List.cons_append, lineStrLoop]
      simp only [gt_iff_lt, lt_self_iff_false, if_false, Nat.zero_add]
    rw [lineStrOf, h0, h, List.map_cons, intercalate_cons_map, List.map_map]
    simp only [List.append_assoc, Function.comp_def]

/-! ## Heuristic source locator: further claims -/

theorem matchNumbers_eq_nil (test : Str → Bool) (ls : List Str) (n : Int)
    (h : ∀ l ∈ ls, test l = false) : matchNumbers test ls n = [] := by
  induction ls generalizing n with
  | nil => rfl
  | cons l ls ih =>
    have h1 := h l (List.mem_cons_self l ls)
    simp only [matchNumbers, h1, Bool.false_eq_true, if_false]
    exact ih (n + 1) (fun x hx => h x (List.mem_cons_of_mem l hx))

theorem linesContaining_eq_nil (pattern text : Str)
    (h : ∀ l ∈ textLines text, ¬ pattern <:+: l) : linesContaining pattern text = [] := by
  rw [linesContaining_eq_matchNumbers]
  apply matchNumbers_eq_nil
  intro l hl
  simpa using h l hl

theorem not_infix_of_newline (name : Str) (hkey : '\n' ∈ name) (text : Str) :
    ∀ l ∈ textLines text, ¬ namePattern name <:+: l := by
  intro l hl hsub
  have h1 : '\n' ∈ namePattern name := by
    simp only [namePattern, List.mem_append]
    exact Or.inl (Or.inr hkey)
  exact textLines_no_newline text l hl (hsub.subset h1)

/-- C17: when no line of the text contains the literal `name="<key>"`, as when
all `N >= 1` occurrences of the key are single-quoted, `findLinesForName` returns
the empty list for every `maxMatches`, which is fewer than `N` line numbers. -/
theorem findLinesForName_noncanonical (xmlContent name : Str) (N maxMatches : Nat)
    (hN : 1 ≤ N) (hnone : ∀ l ∈ textLines xmlContent, ¬ namePattern name <:+: l) :
    findLinesForName xmlContent name maxMatches = [] ∧
    (findLinesForName xmlContent name maxMatches).length < N := by
  have h : findLinesForName xmlContent name maxMatches = [] := by
    rw [findLinesForName_eq, linesContaining_eq_nil _ _ hnone, List.take_nil]
  refine ⟨h, ?_⟩
  rw [h]
  exact hN

/-- Witness of C17: the key A written twice with single quotes. -/
theorem findLinesForName_noncanonical_witness :
    (∀ l ∈ textLines "<game name='A'/>\n<game name='A'/>".toList,
      ¬ namePattern ['A'] <:+: l) ∧
    findLinesForName "<game name='A'/>\n<game name='A'/>".toList ['A'] 2 = [] :=
  ⟨by decide,
    (findLinesForName_noncanonical "<game name='A'/>\n<game name='A'/>".toList ['A'] 2 2
      (by decide) (by decide)).1⟩

/-- C20: if the key contains a newline then `findLinesForName` returns the empty
list for every text and every `maxMatches`, and a finding of
`reportDuplicateNames` for such a name has no line numbers and is printed with
the line list "()". -/
theorem findLinesForName_multiline_key (name : Str) (hkey : '\n' ∈ name) :
    (∀ (xmlContent : Str) (maxMatches : Nat),
      findLinesForName xmlContent name maxMatches = []) ∧
    ∀ (games : List GameInfo) (xmlContent : Str) (f : Finding),
      f ∈ duplicateFindings games xmlContent → f.name = name →
      f.lines = [] ∧ lineStrOf f.lines = "()".toList := by
  have h : ∀ (xmlContent : Str) (maxMatches : Nat),
      findLinesForName xmlContent name maxMatches = [] := by
    intro xmlContent maxMatches
    rw [findLinesForName_eq,
      linesContaining_eq_nil _ _ (not_infix_of_newline name hkey xmlContent), List.take_nil]
  refine ⟨h, ?_⟩
  intro games xmlContent f hf hname
  have h1 := (mem_duplicateFindings games xmlContent f hf).2.2
  rw [hname, h] at h1
  rw [h1]
  exact ⟨rfl, by decide⟩

/-- Witness of C20: the key "A\nB", duplicated, in a text that holds it. -/
theorem findLinesForName_multiline_key_witness :
    findLinesForName "<game name=\"A\nB\"/>".toList ['A', '\n', 'B'] 2 = [] ∧
    (duplicateFindings [⟨['A', '\n', 'B'], [], []⟩, ⟨['A', '\n', 'B'], [], []⟩]
      "<game name=\"A\nB\"/>".toList).map Finding.lines = [[]] :=
  ⟨(findLinesForName_multiline_key ['A', '\n', 'B'] (by decide)).1 _ _, by decide⟩

/-! ## Line/column locator: safety and bounds -/

end XmlGameDuplicateFinder
